import Mathlib

/-
Verification of the GSMopener data-model spec against the source.

Shallow embedding notes:
* JavaScript strings are modelled as `List Char` (`JStr`); the async
  key-value store (AsyncStorage) is an association list from keys to
  string values, with `getItem`/`setItem`/`removeItem` mirroring the
  adapter contract.  All storage operations are modelled as pure state
  transformers (the app is single-threaded, every call is awaited).
* `JSON.parse` / `JSON.stringify` are modelled by an executable
  parser/printer pair over a `Json` tree.  JSON numbers are modelled as
  (optionally signed) integer literals; fraction/exponent forms and
  `\uXXXX` string escapes are outside the model (no claim depends on
  them).  String escaping covers the quote, backslash, newline, carriage
  return and tab, matching what `JSON.stringify` emits for the
  characters the model ranges over; other control characters travel
  verbatim.  JavaScript object semantics for duplicate keys (first
  position wins, last assignment wins) are modelled by `consField` /
  `JsonFields.assign`.  The integer-like-key reordering that JavaScript
  objects perform is not modelled; every claim is stated
  order-insensitively (via lookups), so this does not affect any result.
* The device registry (src/unnamed/part_008) owns the keys
  `gsm_devices` / `active_device_id` plus the legacy flat keys, and is
  modelled at the typed level (`RegState`): the `JSON.parse` /
  `JSON.stringify` pairs it performs on its own keys cancel, except for
  the legacy `relaySettings` value, which is kept as a raw string and
  parsed exactly where the source parses it.
* JavaScript truthiness (`if (value)`, `a || b`, `x ? y : z`) is
  modelled explicitly: `null`/`undefined`, the empty string, `false` and
  `0` are falsy.
-/

set_option maxHeartbeats 4000000
set_option linter.unusedVariables false

namespace GsmOpener

/-- JavaScript strings, modelled as lists of characters. -/
abbrev JStr := List Char

/-- The four JSON whitespace characters (also what the backup strings use). -/
def isJsonWs (c : Char) : Bool :=
  c = ' ' || c = '\t' || c = '\n' || c = '\r'

/-- JavaScript `String.prototype.trim`, restricted to JSON whitespace. -/
def jsTrim (s : JStr) : JStr :=
  ((s.dropWhile isJsonWs).reverse.dropWhile isJsonWs).reverse

/-- Decimal digit test, as in the JSON number grammar. -/
def isDigitChar (c : Char) : Bool :=
  '0' ≤ c && c ≤ '9'

/-- Does the string start with a decimal digit? -/
def startsDigit : JStr → Bool
  | [] => false
  | c :: _ => isDigitChar c

/-- The character for one decimal digit. -/
def digitChar (n : Nat) : Char := Char.ofNat (48 + n)

/-- Fuel-driven most-significant-first decimal printing of a natural number. -/
def natToCharsAux : Nat → Nat → JStr → JStr
  | 0, _, acc => acc
  | fuel + 1, n, acc =>
    if n < 10 then digitChar n :: acc
    else natToCharsAux fuel (n / 10) (digitChar (n % 10) :: acc)

/-- Decimal printing of a natural number. -/
def natToChars (n : Nat) : JStr := natToCharsAux (n + 1) n []

/-- The weight `10 ^ digits n`, computed by the same recursion as `natToCharsAux`. -/
def tenPowAux : Nat → Nat → Nat
  | 0, _ => 1
  | fuel + 1, n => if n < 10 then 10 else 10 * tenPowAux fuel (n / 10)

/-- `JSON.stringify` for an integer. -/
def intToChars (n : Int) : JStr :=
  if n < 0 then '-' :: natToChars n.natAbs else natToChars n.toNat

/-- Consume a maximal run of decimal digits, folding them onto an accumulator. -/
def parseDigitsAcc : Nat → JStr → Nat × JStr
  | acc, [] => (acc, [])
  | acc, c :: rest =>
    if isDigitChar c then parseDigitsAcc (10 * acc + (c.toNat - 48)) rest
    else (acc, c :: rest)

/-- Parse an unsigned JSON integer literal (a lone `0`, or a nonzero-led digit run). -/
def parseNumNat : JStr → Option (Nat × JStr)
  | [] => none
  | c :: rest =>
    if c = '0' then (if startsDigit rest then none else some (0, rest))
    else if isDigitChar c then some (parseDigitsAcc (c.toNat - 48) rest)
    else none

/-- Parse a signed JSON integer literal. -/
def parseNum : JStr → Option (Int × JStr)
  | [] => none
  | c :: rest =>
    if c = '-' then
      match parseNumNat rest with
      | some (n, r) => some (-(n : Int), r)
      | none => none
    else
      match parseNumNat (c :: rest) with
      | some (n, r) => some ((n : Int), r)
      | none => none

mutual
/-- JSON values as produced by `JSON.parse` (numbers restricted to integers). -/
inductive Json where
  | null : Json
  | bool (b : Bool) : Json
  | num (n : Int) : Json
  | str (s : JStr) : Json
  | arr (elems : JsonList) : Json
  | obj (fields : JsonFields) : Json
  deriving DecidableEq

/-- Lists of JSON values (a mutual copy of `List Json`, for structural recursion). -/
inductive JsonList where
  | nil : JsonList
  | cons (hd : Json) (tl : JsonList) : JsonList
  deriving DecidableEq

/-- JSON object member lists, in insertion order. -/
inductive JsonFields where
  | nil : JsonFields
  | cons (key : JStr) (val : Json) (tl : JsonFields) : JsonFields
  deriving DecidableEq
end

/-- The keys of an object member list, in order. -/
def JsonFields.keys : JsonFields → List JStr
  | .nil => []
  | .cons k _ fs => k :: fs.keys

/-- First value stored under a key, if any. -/
def JsonFields.lookup : JsonFields → JStr → Option Json
  | .nil, _ => none
  | .cons k v fs, key => if k = key then some v else fs.lookup key

/-- Remove the first member carrying a key. -/
def JsonFields.eraseKey : JsonFields → JStr → JsonFields
  | .nil, _ => .nil
  | .cons k v fs, key => if k = key then fs else .cons k v (fs.eraseKey key)

/-- Member lists converted to plain association lists. -/
def JsonFields.toList : JsonFields → List (JStr × Json)
  | .nil => []
  | .cons k v fs => (k, v) :: fs.toList

/-- Prepend a member to an already-built object, with JavaScript duplicate-key
semantics: if the key occurs later, the later value wins but the position is
the earlier one (mirrors building an object by successive assignments). -/
def consField (k : JStr) (v : Json) (fs : JsonFields) : JsonFields :=
  match fs.lookup k with
  | some v' => .cons k v' (fs.eraseKey k)
  | none => .cons k v fs

/-- Assign `fields[k] = v` at the end of an object under construction:
replaces the value in place if the key exists, else appends. -/
def JsonFields.assign : JsonFields → JStr → Json → JsonFields
  | .nil, k, v => .cons k v .nil
  | .cons k' v' fs, k, v =>
    if k' = k then .cons k' v fs else .cons k' v' (fs.assign k v)

mutual
/-- A size measure dominating the fuel the parser consumes on a printed value. -/
def jsonSize : Json → Nat
  | .null => 1
  | .bool _ => 1
  | .num _ => 1
  | .str _ => 1
  | .arr xs => 1 + jsonListSize xs
  | .obj fs => 1 + jsonFieldsSize fs

/-- Size measure for element lists. -/
def jsonListSize : JsonList → Nat
  | .nil => 1
  | .cons x xs => jsonSize x + jsonListSize xs

/-- Size measure for member lists. -/
def jsonFieldsSize : JsonFields → Nat
  | .nil => 1
  | .cons _ v fs => jsonSize v + jsonFieldsSize fs
end

/-- Membership test for a key in a key list. -/
def memKey (k : JStr) : List JStr → Bool
  | [] => false
  | k' :: ks => k' == k || memKey k ks

/-- Boolean no-duplicates test for a list of keys. -/
def nodupKeysB : List JStr → Bool
  | [] => true
  | k :: ks => !memKey k ks && nodupKeysB ks

/-- The characters a printed JSON value can start with are not whitespace and
not one of the structural characters the parser dispatches on for closing or
separating. -/
def headOk (c : Char) : Prop :=
  isJsonWs c = false ∧ c ≠ ']' ∧ c ≠ ',' ∧ c ≠ ':' ∧ c ≠ '\x7d'

instance (c : Char) : Decidable (headOk c) := by
  unfold headOk; infer_instance

mutual
/-- Well-formed JSON values: object member lists carry pairwise distinct keys
(the invariant `JSON.parse` output enjoys, since parsing deduplicates). -/
def jsonWF : Json → Bool
  | .null => true
  | .bool _ => true
  | .num _ => true
  | .str _ => true
  | .arr xs => jsonListWF xs
  | .obj fs => nodupKeysB fs.keys && jsonFieldsWF fs

/-- Well-formedness of element lists. -/
def jsonListWF : JsonList → Bool
  | .nil => true
  | .cons x xs => jsonWF x && jsonListWF xs

/-- Well-formedness of the values of a member list. -/
def jsonFieldsWF : JsonFields → Bool
  | .nil => true
  | .cons _ v fs => jsonWF v && jsonFieldsWF fs
end

/-- The escape `JSON.stringify` applies to one string character. -/
def escapeChar (c : Char) : JStr :=
  if c = '"' then ['\\', '"']
  else if c = '\\' then ['\\', '\\']
  else if c = '\n' then ['\\', 'n']
  else if c = '\r' then ['\\', 'r']
  else if c = '\t' then ['\\', 't']
  else [c]

/-- Escape a whole string body. -/
def escapeStr : JStr → JStr
  | [] => []
  | c :: rest => escapeChar c ++ escapeStr rest

/-- A quoted, escaped JSON string token. -/
def stringifyStr (s : JStr) : JStr := '"' :: escapeStr s ++ ['"']

mutual
/-- `JSON.stringify` (compact form, no indentation). -/
def stringifyJson : Json → JStr
  | .null => ['n', 'u', 'l', 'l']
  | .str s => stringifyStr s
  | .bool true => ['t', 'r', 'u', 'e']
  | .num n => intToChars n
  | .bool false => ['f', 'a', 'l', 's', 'e']
  | .arr xs => '[' :: stringifyElems xs
  | .obj fs => '\x7b' :: stringifyMembers fs

/-- Array elements plus the closing bracket. -/
def stringifyElems : JsonList → JStr
  | .nil => [']']
  | .cons x xs => stringifyJson x ++ stringifySepElems xs

/-- Remaining array elements, each preceded by a comma, plus the closing bracket. -/
def stringifySepElems : JsonList → JStr
  | .nil => [']']
  | .cons x xs => ',' :: (stringifyJson x ++ stringifySepElems xs)

/-- Object members plus the closing brace. -/
def stringifyMembers : JsonFields → JStr
  | .nil => ['\x7d']
  | .cons k v fs => '"' :: (escapeStr k ++ '"' :: ':' :: (stringifyJson v ++ stringifySepMembers fs))

/-- Remaining object members, each preceded by a comma, plus the closing brace. -/
def stringifySepMembers : JsonFields → JStr
  | .nil => ['\x7d']
  | .cons k v fs => ',' :: '"' :: (escapeStr k ++ '"' :: ':' :: (stringifyJson v ++ stringifySepMembers fs))
end

/-- Unescape one backslash escape (the model has no `\uXXXX` form). -/
def unescapeChar (e : Char) : Option Char :=
  if e = '"' then some '"'
  else if e = '\\' then some '\\'
  else if e = '/' then some '/'
  else if e = 'n' then some '\n'
  else if e = 'r' then some '\r'
  else if e = 't' then some '\t'
  else if e = 'b' then some '\x08'
  else if e = 'f' then some '\x0c'
  else none

/-- Parse a JSON string body after the opening quote, up to the closing quote. -/
def parseStringBody : JStr → Option (JStr × JStr)
  | [] => none
  | c :: rest =>
    if c = '"' then some ([], rest)
    else if c = '\\' then
      match rest with
      | [] => none
      | e :: rest2 =>
        match unescapeChar e with
        | some u =>
          match parseStringBody rest2 with
          | some (s, r) => some (u :: s, r)
          | none => none
        | none => none
    else
      match parseStringBody rest with
      | some (s, r) => some (c :: s, r)
      | none => none

/-- Fuel-driven parser for one JSON value (leading whitespace allowed, trailing
whitespace left to the caller).  Objects and arrays recurse through a
re-wrapped remainder (after a comma, the remaining members of `{…}` parse
exactly like a fresh object), which keeps the recursion structural in fuel. -/
def parseVal : Nat → JStr → Option (Json × JStr)
  | 0, _ => none
  | fuel + 1, input =>
    match List.dropWhile isJsonWs input with
    | '\x7b' :: r0 =>
      match List.dropWhile isJsonWs r0 with
      | '\x7d' :: r1 => some (.obj .nil, r1)
      | '"' :: r1 =>
        match parseStringBody r1 with
        | none => none
        | some (key, r2) =>
          match List.dropWhile isJsonWs r2 with
          | ':' :: r3 =>
            match parseVal fuel r3 with
            | none => none
            | some (v, r4) =>
              match List.dropWhile isJsonWs r4 with
              | '\x7d' :: r5 => some (.obj (.cons key v .nil), r5)
              | ',' :: r5 =>
                match List.dropWhile isJsonWs r5 with
                | '"' :: _ =>
                  match parseVal fuel ('\x7b' :: r5) with
                  | some (.obj fs, r6) => some (.obj (consField key v fs), r6)
                  | _ => none
                | _ => none
              | _ => none
          | _ => none
      | _ => none
    | '[' :: r0 =>
      match List.dropWhile isJsonWs r0 with
      | ']' :: r1 => some (.arr .nil, r1)
      | _ =>
        match parseVal fuel r0 with
        | none => none
        | some (v, r1) =>
          match List.dropWhile isJsonWs r1 with
          | ']' :: r2 => some (.arr (.cons v .nil), r2)
          | ',' :: r2 =>
            match List.dropWhile isJsonWs r2 with
            | ']' :: _ => none
            | _ =>
              match parseVal fuel ('[' :: r2) with
              | some (.arr xs, r3) => some (.arr (.cons v xs), r3)
              | _ => none
          | _ => none
    | '"' :: r0 =>
      match parseStringBody r0 with
      | some (s, r) => some (.str s, r)
      | none => none
    | 't' :: 'r' :: 'u' :: 'e' :: r => some (.bool true, r)
    | 'f' :: 'a' :: 'l' :: 's' :: 'e' :: r => some (.bool false, r)
    | 'n' :: 'u' :: 'l' :: 'l' :: r => some (.null, r)
    | other =>
      match parseNum other with
      | some (n, r) => some (.num n, r)
      | none => none

/-- `JSON.parse`: one value, then only whitespace may remain. -/
def parseJson (s : JStr) : Option Json :=
  match parseVal (s.length + 1) s with
  | some (v, rest) => if List.dropWhile isJsonWs rest = [] then some v else none
  | none => none

/-- The AsyncStorage key-value store: an association list of string keys and
string values (`getAllKeys` is the key column; existing keys never map to
`null`, and the model inserts each key at most once). -/
abbrev Store := List (JStr × JStr)

/-- `AsyncStorage.getItem`: the stored value, or `none` (JavaScript `null`). -/
def getItem (s : Store) (k : JStr) : Option JStr :=
  match s with
  | [] => none
  | (k', v) :: rest => if k' = k then some v else getItem rest k

/-- `AsyncStorage.setItem`: upsert, appending fresh keys at the end. -/
def setItem (s : Store) (k v : JStr) : Store :=
  match s with
  | [] => [(k, v)]
  | (k', v') :: rest => if k' = k then (k, v) :: rest else (k', v') :: setItem rest k v

/-- The keys of the store hold no duplicates (what AsyncStorage guarantees). -/
def keysNodup (s : Store) : Prop := (s.map Prod.fst).Nodup

/-- The decode attempt `createBackup` makes on one stored value:
`JSON.parse(value)` on success, the raw string otherwise. -/
def tryDecode (v : JStr) : Json :=
  match parseJson v with
  | some j => j
  | none => .str v

/-- The backup object built by `createBackup` in src/app/device-add.tsx:
every key whose value is truthy (non-empty) is assigned its decoded value;
`consField` realizes the JavaScript object-assignment semantics for the
(impossible under `keysNodup`) duplicate-key case. -/
def backupFields : Store → JsonFields
  | [] => .nil
  | (k, v) :: rest =>
    if v = [] then backupFields rest
    else consField k (tryDecode v) (backupFields rest)

/-- src/app/device-add.tsx `createBackup`: read every key, JSON-decode each
truthy value (falling back to the raw string), and stringify the resulting
flat object. -/
def createBackup (store : Store) : JStr :=
  stringifyJson (.obj (backupFields store))

/-- The store as raw JSON members: every key mapped to its stored string,
empty values included, nothing decoded. -/
def rawStore (s : Store) : List (JStr × Json) :=
  s.map (fun kv => (kv.1, Json.str kv.2))

/-- The object `Object.fromEntries(allData)` of the settings-screen backup in
src/unnamed/part_001: every stored key with its raw string value (no truthy
filter, no decode attempt); `consField` realizes the repeated-assignment
semantics of `Object.fromEntries` for the (impossible under `keysNodup`)
duplicate-key case. -/
def settingsFields : Store → JsonFields
  | [] => .nil
  | (k, v) :: rest => consField k (.str v) (settingsFields rest)

/-- src/unnamed/part_001 `createBackup`:
`JSON.stringify(Object.fromEntries(allData), null, 2)` over all keys of the
store.  The source pretty-prints (third argument `2`); the model emits the
same JSON value in its compact form. -/
def createBackupSettings (store : Store) : JStr :=
  stringifyJson (.obj (settingsFields store))

/-- Drop everything before the first opening brace, if one exists at a
positive index (src/app/device-add.tsx `restoreFromBackup`, the
`indexOf`/`substring` step; with no brace the string is left unchanged). -/
def dropBeforeBrace (s : JStr) : JStr :=
  if '\x7b' ∈ s then s.dropWhile (fun c => c ≠ '\x7b') else s

/-- JavaScript truthiness of a parsed JSON value. -/
def jsTruthy : Json → Bool
  | .null => false
  | .bool b => b
  | .num n => n != 0
  | .str s => !s.isEmpty
  | .arr _ => true
  | .obj _ => true

/-- The `!backupData || typeof backupData !== 'object'` guard: only objects
and arrays pass (JavaScript `typeof` calls both `'object'`; `null` is caught
by the truthiness test). -/
def jsObjLike : Json → Bool
  | .obj _ => true
  | .arr _ => true
  | _ => false

/-- The `backupData.data ? backupData.data : backupData` step: an object with
a truthy `data` member is unwrapped to that member, anything else restores
as-is. -/
def resolveData (j : Json) : Json :=
  match j with
  | .obj fs =>
    match fs.lookup ['d', 'a', 't', 'a'] with
    | some d => if jsTruthy d then d else j
    | none => j
  | _ => j

/-- `Object.entries` on a parsed JSON value: object members, indexed array
elements, indexed one-character strings for a string, empty for the rest
(`null` never reaches this point in the restore path). -/
def enumJsonList : Nat → JsonList → List (JStr × Json)
  | _, .nil => []
  | i, .cons x xs => (natToChars i, x) :: enumJsonList (i + 1) xs

/-- Index the characters of a string, as `Object.entries` does on strings. -/
def enumChars : Nat → JStr → List (JStr × Json)
  | _, [] => []
  | i, c :: cs => (natToChars i, .str [c]) :: enumChars (i + 1) cs

/-- JavaScript `Object.entries`. -/
def jsEntries : Json → List (JStr × Json)
  | .obj fs => fs.toList
  | .arr xs => enumJsonList 0 xs
  | .str s => enumChars 0 s
  | _ => []

/-- How a restored entry value is written back: strings verbatim,
everything else re-encoded with `JSON.stringify`. -/
def jsonToStoredString (v : Json) : JStr :=
  match v with
  | .str s => s
  | v => stringifyJson v

/-- The per-entry restore loop: `null`/`undefined` values are skipped,
the others written, and successes counted. -/
def restoreItems : List (JStr × Json) → Store → Store × Nat
  | [], store => (store, 0)
  | (k, v) :: rest, store =>
    if v = Json.null then restoreItems rest store
    else
      match restoreItems rest (setItem store k (jsonToStoredString v)) with
      | (store2, n) => (store2, n + 1)

/-- Lookup in a decoded entry list (first match wins). -/
def lookupEntries : List (JStr × Json) → JStr → Option Json
  | [], _ => none
  | (k, v) :: rest, key => if k = key then some v else lookupEntries rest key

/-- src/app/device-add.tsx `restoreFromBackup`: trim, drop a prefix before
the first brace, `JSON.parse`, require an object-like value, clear the whole
store, unwrap a truthy `data` member, then write the entries one by one.
The error strings are the source's `Error` messages. -/
def restoreFromBackup (backupJson : JStr) (store : Store) : Except JStr (Store × Nat) :=
  if (jsTrim backupJson).length < 2 then
    .error "Backup file is empty".data
  else
    match parseJson (dropBeforeBrace (jsTrim backupJson)) with
    | none => .error "Could not parse backup file - invalid JSON format".data
    | some backupData =>
      if jsObjLike backupData then
        match jsEntries (resolveData backupData) with
        | [] => .error "No data found in backup".data
        | entries =>
          match restoreItems entries ([] : Store) with
          | (_, 0) => .error "Failed to restore any items".data
          | (store2, n) => .ok (store2, n)
      else
        .error "Invalid backup data - not an object".data

/-- The spec-side acceptance condition for the restore operation (amended
claim C10): the trimmed input is at least two characters, the brace-stripped
remainder parses, the parse is object-like, and the resolved data map yields
at least one entry with non-`null` value. -/
def restoreAccepts (input : JStr) : Bool :=
  if (jsTrim input).length < 2 then false
  else
    match parseJson (dropBeforeBrace (jsTrim input)) with
    | none => false
    | some j =>
      jsObjLike j && (jsEntries (resolveData j)).any (fun e => e.2 != Json.null)

/-- Whether an `Except` result is a success. -/
def isOkB : Except JStr (Store × Nat) → Bool
  | .ok _ => true
  | .error _ => false

/-- The store contents after a backup, as an association list: every key with
a truthy value, paired with its decode attempt. -/
def cleanStore : Store → List (JStr × Json)
  | [] => []
  | (k, v) :: rest =>
    if v = [] then cleanStore rest else (k, tryDecode v) :: cleanStore rest

/-- Association lists repackaged as object member lists. -/
def fieldsOfList : List (JStr × Json) → JsonFields
  | [] => .nil
  | (k, v) :: rest => .cons k v (fieldsOfList rest)

/-- What one stored value becomes after the backup/restore round trip:
dropped if empty or decoding to JSON `null`; the decoded string if it decodes
to a JSON string; re-encoded if it decodes to any other JSON value; verbatim
if it does not parse as JSON. -/
def rtVal (v : JStr) : Option JStr :=
  if v = [] then none
  else
    match parseJson v with
    | some .null => none
    | some (.str s) => some s
    | some j => some (stringifyJson j)
    | none => some v

/-- The store holds no `data` key whose backed-up value would be truthy (such
a key would make the restore unwrap it instead of the whole document). -/
def dataSafe (s : Store) : Prop :=
  match getItem s ['d', 'a', 't', 'a'] with
  | some v => v = [] ∨ jsTruthy (tryDecode v) = false
  | none => True

/-- Relay settings stored inside a device record.  The source parses the
legacy value with `JSON.parse` and uses whatever comes out, so the field is
kept as a parsed JSON value. -/
structure DeviceData where
  id : String
  name : String
  unitNumber : String
  password : String
  type : String
  isActive : Bool
  relaySettings : Json
  deriving DecidableEq

/-- A device record as passed to `addDevice` (`Omit<DeviceData, 'id'>`). -/
structure DeviceInput where
  name : String
  unitNumber : String
  password : String
  type : String
  isActive : Bool
  relaySettings : Json
  deriving DecidableEq

/-- The slice of AsyncStorage the device registry owns, at the typed level:
the parsed `gsm_devices` array, the raw `active_device_id` value, and the
three legacy single-device keys (`relaySettings` kept raw because the source
parses it only during migration). -/
structure RegState where
  devices : List DeviceData
  activeId : Option String
  legacyUnitNumber : Option String
  legacyPassword : Option String
  legacyRelaySettings : Option String
  deriving DecidableEq

/-- Empty storage: no devices, no pointer, no legacy keys. -/
def emptyReg : RegState :=
  { devices := [], activeId := none, legacyUnitNumber := none,
    legacyPassword := none, legacyRelaySettings := none }

/-- src/unnamed/part_008 `getDevices` (storage read, `[]` when absent). -/
def getDevices (s : RegState) : List DeviceData := s.devices

/-- src/unnamed/part_008 `getActiveDeviceId`. -/
def getActiveDeviceId (s : RegState) : Option String := s.activeId

/-- src/unnamed/part_008 `setActiveDevice`: unconditional pointer overwrite,
no existence check. -/
def setActiveDevice (s : RegState) (deviceId : String) : RegState :=
  { s with activeId := some deviceId }

/-- src/unnamed/part_008 `addDevice`: append a record under a fresh id (the
`Math.random` UUID is passed in as `freshId`), and set the pointer when the
collection was empty. -/
def addDevice (s : RegState) (device : DeviceInput) (freshId : String) :
    RegState × DeviceData :=
  let newDevice : DeviceData :=
    { id := freshId, name := device.name, unitNumber := device.unitNumber,
      password := device.password, type := device.type,
      isActive := device.isActive, relaySettings := device.relaySettings }
  let s1 := { s with devices := getDevices s ++ [newDevice] }
  if (getDevices s).length = 0 then (setActiveDevice s1 newDevice.id, newDevice)
  else (s1, newDevice)

/-- src/unnamed/part_008 `updateDevice`: replace the record with a matching
id, silently keeping everything else. -/
def updateDevice (s : RegState) (device : DeviceData) : RegState :=
  { s with devices := (getDevices s).map (fun d => if d.id = device.id then device else d) }

/-- src/unnamed/part_008 `deleteDevice`: filter the record out, then — when
the deleted id was the active one and devices remain — re-elect the first
remaining device.  Note the pointer is left untouched (dangling) when the
collection becomes empty. -/
def deleteDevice (s : RegState) (deviceId : String) : RegState :=
  let updatedDevices := (getDevices s).filter (fun d => d.id ≠ deviceId)
  let s1 := { s with devices := updatedDevices }
  match updatedDevices with
  | [] => s1
  | u :: _ =>
    if getActiveDeviceId s = some deviceId then setActiveDevice s1 u.id else s1

/-- src/unnamed/part_008 `getActiveDevice`: resolve the pointer against the
collection; a missing or falsy (empty-string) pointer and a dangling pointer
all yield `null`. -/
def getActiveDevice (s : RegState) : Option DeviceData :=
  match getActiveDeviceId s with
  | none => none
  | some activeId =>
    if activeId = "" then none
    else (getDevices s).find? (fun d => d.id = activeId)

/-- The default relay settings object used by the legacy migration. -/
def defaultRelaySettings : Json :=
  .obj (.cons ['a', 'c', 'c', 'e', 's', 's', 'C', 'o', 'n', 't', 'r', 'o', 'l'] (.str ['A', 'U', 'T'])
    (.cons ['l', 'a', 't', 'c', 'h', 'T', 'i', 'm', 'e'] (.str ['0', '0', '0']) .nil))

/-- src/unnamed/part_008 `migrateFromLegacyStorage`: a no-op returning
`false` when devices already exist or no legacy unit number is stored (empty
strings are falsy); otherwise a device is synthesized from the legacy keys
(`password || '1234'`, relay settings parsed when present — a parse failure
throws, which the surrounding catch turns into `false` with no state change)
and added via `addDevice`. -/
def migrateFromLegacyStorage (s : RegState) (freshId : String) : RegState × Bool :=
  if getDevices s ≠ [] then (s, false)
  else
    match s.legacyUnitNumber with
    | none => (s, false)
    | some unitNumber =>
      if unitNumber = "" then (s, false)
      else
        let password :=
          match s.legacyPassword with
          | some p => if p = "" then "1234" else p
          | none => "1234"
        let relay : Option Json :=
          match s.legacyRelaySettings with
          | some rs => if rs = "" then some defaultRelaySettings else parseJson rs.data
          | none => some defaultRelaySettings
        match relay with
        | none => (s, false)
        | some relaySettings =>
          ((addDevice s
            { name := "My Connect4v", unitNumber := unitNumber, password := password,
              type := "Connect4v", isActive := true, relaySettings := relaySettings }
            freshId).1, true)

/-- Fold a sequence of `addDevice` calls (each paired with its fresh id). -/
def addSeq (s : RegState) (adds : List (DeviceInput × String)) : RegState :=
  adds.foldl (fun st p => (addDevice st p.1 p.2).1) s

/-- JavaScript `String.prototype.replace` with a plain-string pattern:
only the first occurrence is replaced. -/
def jsReplaceFirst (s pat rep : JStr) : JStr :=
  match s with
  | [] => if pat = [] then rep else []
  | c :: rest =>
    if pat.isPrefixOf (c :: rest) then rep ++ (c :: rest).drop pat.length
    else c :: jsReplaceFirst rest pat rep

/-- Substring test (does `pat` occur contiguously inside `s`?). -/
def containsSub (s pat : JStr) : Bool :=
  match s with
  | [] => pat.isEmpty
  | c :: rest => pat.isPrefixOf (c :: rest) || containsSub rest pat

/-- src/unnamed/part_005 `addAuthorizedUser`: the SMS command
`password + 'A' + serial + '#' + phone + '#'` (no time restrictions). -/
def addUserCommand (password serial phone : JStr) : JStr :=
  password ++ 'A' :: serial ++ '#' :: phone ++ ['#']

/-- src/unnamed/part_005 `sendSMS` success logging: the details string is
`Command sent: ` followed by `command.replace(password, '****')`. -/
def authorizedUsersLogDetails (password command : JStr) : JStr :=
  "Command sent: ".data ++ jsReplaceFirst command password "****".data

/-- The device-scoped authorized-users key `authorizedUsers_<deviceId>`. -/
def scopedUsersKey (deviceId : JStr) : JStr :=
  "authorizedUsers_".data ++ deviceId

/-- The legacy global authorized-users key. -/
def legacyUsersKey : JStr := "authorizedUsers".data

/-- src/unnamed/part_005 `loadAuthorizedUsers`: read the device-scoped slot
when a device id is given, fall back to the legacy global slot whenever the
value so far is falsy (missing or empty), and return the raw JSON that would
be parsed into state (`none` when nothing truthy was found). -/
def loadAuthorizedUsers (store : Store) (deviceId : Option JStr) : Option JStr :=
  let savedUsers : Option JStr :=
    match deviceId with
    | some id => getItem store (scopedUsersKey id)
    | none => none
  let savedUsers2 : Option JStr :=
    match savedUsers with
    | some v => if v = [] then getItem store legacyUsersKey else some v
    | none => getItem store legacyUsersKey
  match savedUsers2 with
  | some v => if v = [] then none else some v
  | none => none

/-- Modelled from the spec: `getDeviceUsers` of src/utils/authorizedUsersStorage
is not part of the provided sources (only its caller in DeviceContext.tsx is);
per spec section 4.3 it returns the stored device-scoped list, or empty.  The
model returns the raw device-scoped slot (`none` standing for the empty list). -/
def getDeviceUsers (store : Store) (deviceId : JStr) : Option JStr :=
  getItem store (scopedUsersKey deviceId)

/-- src/app/contexts/DeviceContext.tsx `getAuthorizedUsers`: target the given
device id, else the active device (JavaScript `||`, so empty-string ids are
skipped), and only without any target fall back to the legacy global slot. -/
def getAuthorizedUsers (store : Store) (activeDeviceId : Option JStr)
    (deviceId : Option JStr) : Option JStr :=
  let target : Option JStr :=
    match deviceId with
    | some id => if id = [] then (match activeDeviceId with
        | some a => if a = [] then none else some a
        | none => none) else some id
    | none =>
      match activeDeviceId with
      | some a => if a = [] then none else some a
      | none => none
  match target with
  | some id => getDeviceUsers store id
  | none => getItem store legacyUsersKey

/-- A sample device record used by the concrete checks. -/
def devA : DeviceData :=
  { id := "a", name := "Home Gate", unitNumber := "+15551234567", password := "1234",
    type := "Connect4v", isActive := true, relaySettings := defaultRelaySettings }

/-- A second sample device record. -/
def devB : DeviceData :=
  { id := "b", name := "Office Door", unitNumber := "+15557654321", password := "4321",
    type := "Connect4v", isActive := true, relaySettings := defaultRelaySettings }

/-- A device record carrying the empty string as its id. -/
def devBlank : DeviceData :=
  { id := "", name := "Blank", unitNumber := "+15550000000", password := "0000",
    type := "Connect4v", isActive := true, relaySettings := defaultRelaySettings }

/-- A device record with id `x`, used together with `devBlank`. -/
def devX : DeviceData :=
  { id := "x", name := "X Gate", unitNumber := "+15551112222", password := "1111",
    type := "Connect4v", isActive := true, relaySettings := defaultRelaySettings }

/-- Sample input for `addDevice` (a record without its id). -/
def devInputA : DeviceInput :=
  { name := "Home Gate", unitNumber := "+15551234567", password := "1234",
    type := "Connect4v", isActive := true, relaySettings := defaultRelaySettings }

/-- Registry state holding `devX` and an empty-id device, with `x` active. -/
def regDelete : RegState :=
  { devices := [devX, devBlank], activeId := some "x", legacyUnitNumber := none,
    legacyPassword := none, legacyRelaySettings := none }

/-- Registry state holding two well-formed devices, with `a` active. -/
def regTwo : RegState :=
  { devices := [devA, devB], activeId := some "a", legacyUnitNumber := none,
    legacyPassword := none, legacyRelaySettings := none }

/-- Registry state holding one device, with it active. -/
def regOne : RegState :=
  { devices := [devA], activeId := some "a", legacyUnitNumber := none,
    legacyPassword := none, legacyRelaySettings := none }

/-- A one-key store used by the concrete checks. -/
def storeOne : Store := [("a".data, "1".data)]

/-- A store holding only the legacy authorized-users list. -/
def storeLegacyOnly : Store := [(legacyUsersKey, "[\"u\"]".data)]

/-- A store holding only one device-scoped authorized-users list. -/
def storeScoped : Store := [(scopedUsersKey "d1".data, "[\"x\"]".data)]

/-- Dropping whitespace leaves a string that starts with a non-space alone. -/
theorem dropWhile_ws_cons {c : Char} (h : isJsonWs c = false) (rest : JStr) :
    List.dropWhile isJsonWs (c :: rest) = c :: rest := by
  simp [List.dropWhile, h]

/-- The printing accumulator commutes with appending. -/
theorem natToCharsAux_append (fuel : Nat) : ∀ (n : Nat) (acc t : JStr),
    natToCharsAux fuel n acc ++ t = natToCharsAux fuel n (acc ++ t) := by
  induction fuel with
  | zero => intro n acc t; simp [natToCharsAux]
  | succ fuel ih =>
    intro n acc t
    by_cases hn : n < 10
    · simp [natToCharsAux, hn]
    · simp only [natToCharsAux, if_neg hn]
      exact ih (n / 10) (digitChar (n % 10) :: acc) t

/-- Digit characters are decimal digits. -/
theorem digitChar_isDigit {m : Nat} (h : m < 10) : isDigitChar (digitChar m) = true := by
  interval_cases m <;> decide

/-- The code of a digit character. -/
theorem digitChar_toNat {m : Nat} (h : m < 10) : (digitChar m).toNat = 48 + m := by
  interval_cases m <;> decide

/-- Nonzero digits do not print as the zero character. -/
theorem digitChar_ne_zeroChar {m : Nat} (h : m < 10) (h2 : 0 < m) : digitChar m ≠ '0' := by
  interval_cases m <;> decide

/-- Digit characters are not the minus sign. -/
theorem digitChar_ne_minus {m : Nat} (h : m < 10) : digitChar m ≠ '-' := by
  interval_cases m <;> decide

/-- Digit characters are not whitespace. -/
theorem digitChar_not_ws {m : Nat} (h : m < 10) : isJsonWs (digitChar m) = false := by
  interval_cases m <;> decide

/-- Digit characters are none of the parser's special leading characters. -/
theorem digitChar_not_special {m : Nat} (h : m < 10) :
    digitChar m ≠ '\x7b' ∧ digitChar m ≠ '[' ∧ digitChar m ≠ '"' ∧ digitChar m ≠ 't' ∧
      digitChar m ≠ 'f' ∧ digitChar m ≠ 'n' ∧ digitChar m ≠ ']' ∧ digitChar m ≠ ',' ∧
      digitChar m ≠ ':' ∧ digitChar m ≠ '\x7d' := by
  interval_cases m <;> decide

/-- A digit run folds the printed number onto the accumulator with the weight
`tenPowAux`. -/
theorem parseDigitsAcc_natToCharsAux (fuel : Nat) : ∀ (n acc : Nat) (t : JStr), n < fuel →
    parseDigitsAcc acc (natToCharsAux fuel n t) =
      parseDigitsAcc (acc * tenPowAux fuel n + n) t := by
  induction fuel with
  | zero => intro n acc t h; omega
  | succ fuel ih =>
    intro n acc t h
    by_cases hn : n < 10
    · simp only [natToCharsAux, tenPowAux, if_pos hn]
      show parseDigitsAcc acc (digitChar n :: t) = _
      simp only [parseDigitsAcc, digitChar_isDigit hn, if_pos]
      have he : 10 * acc + ((digitChar n).toNat - 48) = acc * 10 + n := by
        rw [digitChar_toNat hn]; omega
      rw [he]
    · simp only [natToCharsAux, tenPowAux, if_neg hn]
      have hdiv : n / 10 < fuel := by
        have h1 : n / 10 < n := Nat.div_lt_self (by omega) (by omega)
        omega
      rw [ih (n / 10) acc (digitChar (n % 10) :: t) hdiv]
      have hm : n % 10 < 10 := Nat.mod_lt _ (by omega)
      simp only [parseDigitsAcc, digitChar_isDigit hm, if_pos]
      have he : 10 * (acc * tenPowAux fuel (n / 10) + n / 10) + ((digitChar (n % 10)).toNat - 48) =
          acc * (10 * tenPowAux fuel (n / 10)) + n := by
        rw [digitChar_toNat hm]
        have := Nat.div_add_mod n 10
        ring_nf
        omega
      rw [he]

/-- The digit fold stops on a non-digit. -/
theorem parseDigitsAcc_stop (acc : Nat) {t : JStr} (h : startsDigit t = false) :
    parseDigitsAcc acc t = (acc, t) := by
  cases t with
  | nil => simp [parseDigitsAcc]
  | cons c r =>
    simp only [startsDigit] at h
    simp [parseDigitsAcc, h]

/-- The leading character of a printed natural number: a digit, nonzero when
the number is. -/
theorem natToCharsAux_shape (fuel : Nat) : ∀ (n : Nat) (t : JStr), n < fuel →
    ∃ m r, natToCharsAux fuel n t = digitChar m :: r ∧ m < 10 ∧ (0 < n → 0 < m) := by
  induction fuel with
  | zero => intro n t h; omega
  | succ fuel ih =>
    intro n t h
    by_cases hn : n < 10
    · exact ⟨n, t, by simp [natToCharsAux, hn], hn, fun hp => hp⟩
    · simp only [natToCharsAux, if_neg hn]
      have hdiv : n / 10 < fuel := by
        have h1 : n / 10 < n := Nat.div_lt_self (by omega) (by omega)
        omega
      obtain ⟨m, r, heq, hm, hpos⟩ := ih (n / 10) (digitChar (n % 10) :: t) hdiv
      refine ⟨m, r, heq, hm, fun _ => hpos ?_⟩
      exact Nat.div_pos (by omega) (by omega)

/-- Parsing an unsigned printed number recovers it, leaving a non-digit tail. -/
theorem parseNumNat_print (n : Nat) {t : JStr} (h : startsDigit t = false) :
    parseNumNat (natToChars n ++ t) = some (n, t) := by
  have hrw : natToChars n ++ t = natToCharsAux (n + 1) n t := by
    simp [natToChars, natToCharsAux_append]
  rw [hrw]
  by_cases hz : n = 0
  · subst hz
    have h0 : natToCharsAux 1 0 t = '0' :: t := rfl
    rw [h0]
    simp [parseNumNat, h]
  · obtain ⟨m, r, heq, hm, hpos⟩ := natToCharsAux_shape (n + 1) n t (by omega)
    have hm0 : 0 < m := hpos (by omega)
    have hacc : parseDigitsAcc 0 (natToCharsAux (n + 1) n t) = (n, t) := by
      rw [parseDigitsAcc_natToCharsAux (n + 1) n 0 t (by omega)]
      simp [parseDigitsAcc_stop _ h]
    rw [heq] at hacc ⊢
    simp only [parseNumNat]
    rw [if_neg (digitChar_ne_zeroChar hm hm0), if_pos (digitChar_isDigit hm)]
    have hstep : parseDigitsAcc 0 (digitChar m :: r) = parseDigitsAcc ((digitChar m).toNat - 48) r := by
      simp [parseDigitsAcc, digitChar_isDigit hm]
    rw [← hstep, hacc]

/-- Parsing a printed integer recovers it, leaving a non-digit tail. -/
theorem parseNum_print (n : Int) {t : JStr} (h : startsDigit t = false) :
    parseNum (intToChars n ++ t) = some (n, t) := by
  by_cases hn : n < 0
  · have h1 : intToChars n ++ t = '-' :: (natToChars n.natAbs ++ t) := by
      simp [intToChars, if_pos hn]
    rw [h1]
    simp [parseNum, parseNumNat_print n.natAbs h]
    rw [abs_of_neg hn]
    omega
  · have h1 : intToChars n ++ t = natToCharsAux (n.toNat + 1) n.toNat t := by
      simp [intToChars, if_neg hn, natToChars, natToCharsAux_append]
    obtain ⟨m, r, heq, hm, _⟩ := natToCharsAux_shape (n.toNat + 1) n.toNat t (by omega)
    have h3 : parseNumNat (intToChars n ++ t) = some (n.toNat, t) := by
      have h5 := parseNumNat_print n.toNat (t := t) h
      rw [show natToChars n.toNat ++ t = intToChars n ++ t by
        simp [intToChars, if_neg hn]] at h5
      exact h5
    have h4 : ((n.toNat : Int)) = n := by omega
    rw [h1, heq]
    simp only [parseNum]
    rw [if_neg (digitChar_ne_minus hm)]
    rw [← heq, ← h1]
    simp [h3, h4]

/-- Unescaping inverts escaping, one character at a time. -/
theorem parseStringBody_escapeChar {c : Char} {r cs t : JStr}
    (hr : parseStringBody r = some (cs, t)) :
    parseStringBody (escapeChar c ++ r) = some (c :: cs, t) := by
  by_cases h1 : c = '"'
  · subst h1; simp [escapeChar, parseStringBody, unescapeChar, hr]
  by_cases h2 : c = '\\'
  · subst h2; simp [escapeChar, parseStringBody, unescapeChar, hr]
  by_cases h3 : c = '\n'
  · subst h3; simp [escapeChar, parseStringBody, unescapeChar, hr]
  by_cases h4 : c = '\r'
  · subst h4; simp [escapeChar, parseStringBody, unescapeChar, hr]
  by_cases h5 : c = '\t'
  · subst h5; simp [escapeChar, parseStringBody, unescapeChar, hr]
  · have h6 : escapeChar c ++ r = c :: r := by simp [escapeChar, h1, h2, h3, h4, h5]
    rw [h6, parseStringBody.eq_def]
    simp [h1, h2, hr]

/-- Parsing an escaped string body up to the closing quote recovers it. -/
theorem parseStringBody_escape (s : JStr) : ∀ t : JStr,
    parseStringBody (escapeStr s ++ '"' :: t) = some (s, t) := by
  induction s with
  | nil =>
    intro t
    have h0 : escapeStr [] ++ '"' :: t = '"' :: t := by simp [escapeStr]
    rw [h0, parseStringBody.eq_def]
    simp
  | cons c cs ih =>
    intro t
    have h1 : escapeStr (c :: cs) ++ '"' :: t = escapeChar c ++ (escapeStr cs ++ '"' :: t) := by
      simp [escapeStr]
    rw [h1]
    exact parseStringBody_escapeChar (ih t)

/-- Every JSON value is printed with at least one character. -/
theorem jsonSize_pos (v : Json) : 1 ≤ jsonSize v := by
  cases v <;> simp [jsonSize]

/-- Element lists have positive size. -/
theorem jsonListSize_pos (xs : JsonList) : 1 ≤ jsonListSize xs := by
  cases xs with
  | nil => simp [jsonListSize]
  | cons x xs => have := jsonSize_pos x; simp [jsonListSize]; omega

/-- Member lists have positive size. -/
theorem jsonFieldsSize_pos (fs : JsonFields) : 1 ≤ jsonFieldsSize fs := by
  cases fs with
  | nil => simp [jsonFieldsSize]
  | cons k v fs => have := jsonSize_pos v; simp [jsonFieldsSize]; omega

mutual
/-- The size measure is dominated by the printed length plus one. -/
theorem jsonSize_le (v : Json) : jsonSize v ≤ (stringifyJson v).length + 1 := by
  cases v with
  | null => simp [jsonSize, stringifyJson]
  | bool b => cases b <;> simp [jsonSize, stringifyJson]
  | num n => simp only [jsonSize]; omega
  | str s => simp [jsonSize, stringifyJson]
  | arr xs =>
    have h := jsonListSize_le xs
    have h2 : (stringifyJson (.arr xs)).length = 1 + (stringifyElems xs).length := by
      simp [stringifyJson]; omega
    have h3 : (stringifySepElems xs).length ≤ (stringifyElems xs).length + 1 := by
      cases xs <;> simp [stringifySepElems, stringifyElems] <;> omega
    simp only [jsonSize]
    omega
  | obj fs =>
    have h := jsonFieldsSize_le fs
    have h2 : (stringifyJson (.obj fs)).length = 1 + (stringifyMembers fs).length := by
      simp [stringifyJson]; omega
    have h3 : (stringifySepMembers fs).length ≤ (stringifyMembers fs).length + 1 := by
      cases fs <;> simp [stringifySepMembers, stringifyMembers] <;> omega
    simp only [jsonSize]
    omega

/-- Size bound for element tails against their separated printing. -/
theorem jsonListSize_le (xs : JsonList) : jsonListSize xs ≤ (stringifySepElems xs).length := by
  cases xs with
  | nil => simp [jsonListSize, stringifySepElems]
  | cons x xs =>
    have h1 := jsonSize_le x
    have h2 := jsonListSize_le xs
    simp only [jsonListSize, stringifySepElems]
    simp only [List.length_cons, List.length_append]
    omega

/-- Size bound for member tails against their separated printing. -/
theorem jsonFieldsSize_le (fs : JsonFields) : jsonFieldsSize fs ≤ (stringifySepMembers fs).length := by
  cases fs with
  | nil => simp [jsonFieldsSize, stringifySepMembers]
  | cons k v fs =>
    have h1 := jsonSize_le v
    have h2 := jsonFieldsSize_le fs
    simp only [jsonFieldsSize, stringifySepMembers]
    simp only [List.length_cons, List.length_append]
    omega
end

/-- A printed JSON value starts with a character the parser can dispatch on. -/
theorem stringifyJson_head (v : Json) : ∃ c r, stringifyJson v = c :: r ∧ headOk c := by
  cases v with
  | null => exact ⟨'n', _, rfl, by decide⟩
  | bool b =>
    cases b with
    | false => exact ⟨'f', _, rfl, by decide⟩
    | true => exact ⟨'t', _, rfl, by decide⟩
  | num n =>
    by_cases hn : n < 0
    · refine ⟨'-', natToChars n.natAbs, ?_, by decide⟩
      simp [stringifyJson, intToChars, if_pos hn]
    · obtain ⟨m, r, heq, hm, _⟩ := natToCharsAux_shape (n.toNat + 1) n.toNat [] (by omega)
      refine ⟨digitChar m, r, ?_, ?_⟩
      · simp [stringifyJson, intToChars, if_neg hn, natToChars, heq]
      · interval_cases m <;> decide
  | str s => exact ⟨'"', _, rfl, by decide⟩
  | arr xs => exact ⟨'[', _, rfl, by decide⟩
  | obj fs => exact ⟨'\x7b', _, rfl, by decide⟩

/-- The separated-element printing never starts with a digit. -/
theorem startsDigit_sepElems (xs : JsonList) (t : JStr) :
    startsDigit (stringifySepElems xs ++ t) = false := by
  cases xs <;> rfl

/-- The separated-member printing never starts with a digit. -/
theorem startsDigit_sepMembers (fs : JsonFields) (t : JStr) :
    startsDigit (stringifySepMembers fs ++ t) = false := by
  cases fs <;> rfl

/-- A key absent from the key list looks up to nothing. -/
theorem JsonFields.lookup_eq_none : ∀ (fs : JsonFields) (k : JStr),
    memKey k fs.keys = false → fs.lookup k = none
  | .nil, _, _ => rfl
  | .cons k' v' fs, k, h => by
    simp only [JsonFields.keys, memKey, Bool.or_eq_false_iff, beq_eq_false_iff_ne] at h
    simp only [JsonFields.lookup, if_neg h.1]
    exact JsonFields.lookup_eq_none fs k h.2

/-- The parser recovers a printed integer value. -/
theorem parseVal_print_num (fuel : Nat) (n : Int) (t : JStr) (ht : startsDigit t = false) :
    parseVal (fuel + 1) (intToChars n ++ t) = some (.num n, t) := by
  by_cases hn : n < 0
  · have h1 : intToChars n ++ t = '-' :: (natToChars n.natAbs ++ t) := by
      simp [intToChars, if_pos hn]
    rw [h1]
    have h2 : parseVal (fuel + 1) ('-' :: (natToChars n.natAbs ++ t)) =
        match parseNum ('-' :: (natToChars n.natAbs ++ t)) with
        | some (p, r) => some (.num p, r)
        | none => none := rfl
    rw [h2, ← h1, parseNum_print n ht]
  · have h1 : intToChars n ++ t = natToCharsAux (n.toNat + 1) n.toNat t := by
      simp [intToChars, if_neg hn, natToChars, natToCharsAux_append]
    obtain ⟨m, r, heq, hm, _⟩ := natToCharsAux_shape (n.toNat + 1) n.toNat t (by omega)
    have h2 : parseVal (fuel + 1) (digitChar m :: r) =
        match parseNum (digitChar m :: r) with
        | some (p, rr) => some (.num p, rr)
        | none => none := by
      interval_cases m <;> rfl
    rw [h1, heq, h2, ← heq, ← h1, parseNum_print n ht]

/-- The parser is a left inverse of the printer on every well-formed JSON
value, given enough fuel and a remainder that does not continue a number. -/
theorem parseVal_print : ∀ (fuel : Nat) (v : Json), jsonWF v = true → jsonSize v ≤ fuel →
    ∀ t : JStr, startsDigit t = false →
    parseVal fuel (stringifyJson v ++ t) = some (v, t) := by
  intro fuel
  induction fuel with
  | zero =>
    intro v _ hsize t _
    have := jsonSize_pos v
    omega
  | succ fuel ih =>
    intro v hwf hsize t ht
    cases v with
    | null => rfl
    | bool b => cases b with | false => rfl | true => rfl
    | num n => exact parseVal_print_num fuel n t ht
    | str s =>
      have h1 : stringifyJson (.str s) ++ t = '"' :: (escapeStr s ++ '"' :: t) := by
        simp [stringifyJson, stringifyStr]
      rw [h1]
      have h2 : parseVal (fuel + 1) ('"' :: (escapeStr s ++ '"' :: t)) =
          match parseStringBody (escapeStr s ++ '"' :: t) with
          | some (s2, r) => some (.str s2, r)
          | none => none := rfl
      rw [h2, parseStringBody_escape s t]
    | arr xs =>
      cases xs with
      | nil => rfl
      | cons x xs2 =>
        have hwf2 : jsonWF x = true ∧ jsonListWF xs2 = true := by
          simp only [jsonWF, jsonListWF, Bool.and_eq_true] at hwf
          exact hwf
        have hsx : jsonSize x ≤ fuel := by
          have h1 := jsonListSize_pos xs2
          simp only [jsonSize, jsonListSize] at hsize
          omega
        have hsxs : jsonSize (.arr xs2) ≤ fuel := by
          have h1 := jsonSize_pos x
          simp only [jsonSize, jsonListSize] at hsize ⊢
          omega
        have ihx : ∀ t2, startsDigit t2 = false →
            parseVal fuel (stringifyJson x ++ t2) = some (x, t2) :=
          fun t2 h2 => ih x hwf2.1 hsx t2 h2
        have ihxs : ∀ t2, startsDigit t2 = false →
            parseVal fuel (stringifyJson (.arr xs2) ++ t2) = some (.arr xs2, t2) :=
          fun t2 h2 => ih (.arr xs2) (by simp only [jsonWF]; exact hwf2.2) hsxs t2 h2
        obtain ⟨c, r, hcr, hok⟩ := stringifyJson_head x
        have h1 : stringifyJson (.arr (.cons x xs2)) ++ t =
            '[' :: (stringifyJson x ++ (stringifySepElems xs2 ++ t)) := by
          simp [stringifyJson, stringifyElems]
        rw [h1]
        have h2 : parseVal (fuel + 1) ('[' :: (stringifyJson x ++ (stringifySepElems xs2 ++ t))) =
            match List.dropWhile isJsonWs (stringifyJson x ++ (stringifySepElems xs2 ++ t)) with
            | ']' :: r1 => some (.arr .nil, r1)
            | _ =>
              match parseVal fuel (stringifyJson x ++ (stringifySepElems xs2 ++ t)) with
              | none => none
              | some (v, r1) =>
                match List.dropWhile isJsonWs r1 with
                | ']' :: r2 => some (.arr (.cons v .nil), r2)
                | ',' :: r2 =>
                  match List.dropWhile isJsonWs r2 with
                  | ']' :: _ => none
                  | _ =>
                    match parseVal fuel ('[' :: r2) with
                    | some (.arr xs, r3) => some (.arr (.cons v xs), r3)
                    | _ => none
                | _ => none := rfl
        rw [h2]
        have hx := ihx (stringifySepElems xs2 ++ t) (startsDigit_sepElems xs2 t)
        have hdw : List.dropWhile isJsonWs (stringifyJson x ++ (stringifySepElems xs2 ++ t)) =
            c :: (r ++ (stringifySepElems xs2 ++ t)) := by
          rw [hcr, List.cons_append, dropWhile_ws_cons hok.1]
        rw [hdw, hx]
        split
        · next heq => injection heq with hh _; exact absurd hh hok.2.1
        · next =>
          cases xs2 with
          | nil => rfl
          | cons y ys =>
            obtain ⟨c2, r2, hcr2, hok2⟩ := stringifyJson_head y
            have h3 : List.dropWhile isJsonWs (stringifySepElems (.cons y ys) ++ t) =
                ',' :: (stringifyJson y ++ (stringifySepElems ys ++ t)) := by
              simp [stringifySepElems]
              decide
            show (match List.dropWhile isJsonWs (stringifySepElems (JsonList.cons y ys) ++ t) with
                  | ']' :: r2 => some (Json.arr (JsonList.cons x JsonList.nil), r2)
                  | ',' :: r2 =>
                    match List.dropWhile isJsonWs r2 with
                    | ']' :: _ => none
                    | _ =>
                      match parseVal fuel ('[' :: r2) with
                      | some (Json.arr xs, r3) => some (Json.arr (JsonList.cons x xs), r3)
                      | _ => none
                  | _ => none) = some (Json.arr (JsonList.cons x (JsonList.cons y ys)), t)
            rw [h3]
            show (match List.dropWhile isJsonWs (stringifyJson y ++ (stringifySepElems ys ++ t)) with
                  | ']' :: _ => none
                  | _ =>
                    match parseVal fuel ('[' :: (stringifyJson y ++ (stringifySepElems ys ++ t))) with
                    | some (Json.arr xs, r3) => some (Json.arr (JsonList.cons x xs), r3)
                    | _ => none) = some (Json.arr (JsonList.cons x (JsonList.cons y ys)), t)
            have hdw2 : List.dropWhile isJsonWs (stringifyJson y ++ (stringifySepElems ys ++ t)) =
                c2 :: (r2 ++ (stringifySepElems ys ++ t)) := by
              rw [hcr2, List.cons_append, dropWhile_ws_cons hok2.1]
            rw [hdw2]
            split
            · next heq2 => injection heq2 with hh _; exact absurd hh hok2.2.1
            · next =>
              have h4 : '[' :: (stringifyJson y ++ (stringifySepElems ys ++ t)) =
                  stringifyJson (.arr (.cons y ys)) ++ t := by
                simp [stringifyJson, stringifyElems]
              rw [h4, ihxs t ht]
    | obj fs =>
      cases fs with
      | nil => rfl
      | cons k v fs =>
        have hwf2 : memKey k fs.keys = false ∧ nodupKeysB fs.keys = true ∧
            jsonWF v = true ∧ jsonFieldsWF fs = true := by
          simp only [jsonWF, jsonFieldsWF, JsonFields.keys, nodupKeysB, Bool.and_eq_true,
            Bool.not_eq_true'] at hwf
          exact ⟨hwf.1.1, hwf.1.2, hwf.2.1, hwf.2.2⟩
        have hsv : jsonSize v ≤ fuel := by
          have h1 := jsonFieldsSize_pos fs
          simp only [jsonSize, jsonFieldsSize] at hsize
          omega
        have hsfs : jsonSize (.obj fs) ≤ fuel := by
          have h1 := jsonSize_pos v
          simp only [jsonSize, jsonFieldsSize] at hsize ⊢
          omega
        have ihv : ∀ t2, startsDigit t2 = false →
            parseVal fuel (stringifyJson v ++ t2) = some (v, t2) :=
          fun t2 h2 => ih v hwf2.2.2.1 hsv t2 h2
        have ihfs : ∀ t2, startsDigit t2 = false →
            parseVal fuel (stringifyJson (.obj fs) ++ t2) = some (.obj fs, t2) :=
          fun t2 h2 => ih (.obj fs)
            (by simp only [jsonWF, Bool.and_eq_true]; exact ⟨hwf2.2.1, hwf2.2.2.2⟩) hsfs t2 h2
        have h1 : stringifyJson (.obj (.cons k v fs)) ++ t =
            '\x7b' :: '"' :: (escapeStr k ++ '"' :: (':' :: (stringifyJson v ++ (stringifySepMembers fs ++ t)))) := by
          simp [stringifyJson, stringifyMembers]
        rw [h1]
        show (match parseStringBody (escapeStr k ++ '"' :: (':' :: (stringifyJson v ++ (stringifySepMembers fs ++ t)))) with
              | none => none
              | some (key, r2) =>
                match List.dropWhile isJsonWs r2 with
                | ':' :: r3 =>
                  match parseVal fuel r3 with
                  | none => none
                  | some (v2, r4) =>
                    match List.dropWhile isJsonWs r4 with
                    | '\x7d' :: r5 => some (Json.obj (JsonFields.cons key v2 JsonFields.nil), r5)
                    | ',' :: r5 =>
                      match List.dropWhile isJsonWs r5 with
                      | '"' :: _ =>
                        match parseVal fuel ('\x7b' :: r5) with
                        | some (Json.obj fs2, r6) => some (Json.obj (consField key v2 fs2), r6)
                        | _ => none
                      | _ => none
                    | _ => none
                | _ => none) = some (Json.obj (JsonFields.cons k v fs), t)
        rw [parseStringBody_escape k (':' :: (stringifyJson v ++ (stringifySepMembers fs ++ t)))]
        show (match parseVal fuel (stringifyJson v ++ (stringifySepMembers fs ++ t)) with
              | none => none
              | some (v2, r4) =>
                match List.dropWhile isJsonWs r4 with
                | '\x7d' :: r5 => some (Json.obj (JsonFields.cons k v2 JsonFields.nil), r5)
                | ',' :: r5 =>
                  match List.dropWhile isJsonWs r5 with
                  | '"' :: _ =>
                    match parseVal fuel ('\x7b' :: r5) with
                    | some (Json.obj fs2, r6) => some (Json.obj (consField k v2 fs2), r6)
                    | _ => none
                  | _ => none
                | _ => none) = some (Json.obj (JsonFields.cons k v fs), t)
        rw [ihv (stringifySepMembers fs ++ t) (startsDigit_sepMembers fs t)]
        cases fs with
        | nil => rfl
        | cons k2 v2 fs2 =>
          show (match List.dropWhile isJsonWs (stringifySepMembers (JsonFields.cons k2 v2 fs2) ++ t) with
                | '\x7d' :: r5 => some (Json.obj (JsonFields.cons k v JsonFields.nil), r5)
                | ',' :: r5 =>
                  match List.dropWhile isJsonWs r5 with
                  | '"' :: _ =>
                    match parseVal fuel ('\x7b' :: r5) with
                    | some (Json.obj fs3, r6) => some (Json.obj (consField k v fs3), r6)
                    | _ => none
                  | _ => none
                | _ => none) = some (Json.obj (JsonFields.cons k v (JsonFields.cons k2 v2 fs2)), t)
          have h3 : List.dropWhile isJsonWs (stringifySepMembers (JsonFields.cons k2 v2 fs2) ++ t) =
              ',' :: ('"' :: (escapeStr k2 ++ '"' :: (':' :: (stringifyJson v2 ++ (stringifySepMembers fs2 ++ t))))) := by
            simp [stringifySepMembers]
            decide
          rw [h3]
          show (match parseVal fuel ('\x7b' :: ('"' :: (escapeStr k2 ++ '"' :: (':' :: (stringifyJson v2 ++ (stringifySepMembers fs2 ++ t)))))) with
                | some (Json.obj fs3, r6) => some (Json.obj (consField k v fs3), r6)
                | _ => none) = some (Json.obj (JsonFields.cons k v (JsonFields.cons k2 v2 fs2)), t)
          have h4 : ('\x7b' :: ('"' :: (escapeStr k2 ++ '"' :: (':' :: (stringifyJson v2 ++ (stringifySepMembers fs2 ++ t)))))) =
              stringifyJson (.obj (.cons k2 v2 fs2)) ++ t := by
            simp [stringifyJson, stringifyMembers]
          rw [h4, ihfs t ht]
          show some (Json.obj (consField k v (JsonFields.cons k2 v2 fs2)), t) =
              some (Json.obj (JsonFields.cons k v (JsonFields.cons k2 v2 fs2)), t)
          rw [consField, JsonFields.lookup_eq_none (JsonFields.cons k2 v2 fs2) k hwf2.1]

/-- `JSON.parse` inverts `JSON.stringify` on well-formed values. -/
theorem parseJson_print {v : Json} (hwf : jsonWF v = true) :
    parseJson (stringifyJson v) = some v := by
  have hfuel : jsonSize v ≤ (stringifyJson v).length + 1 := jsonSize_le v
  have h1 := parseVal_print ((stringifyJson v).length + 1) v hwf hfuel [] rfl
  rw [List.append_nil] at h1
  rw [parseJson, h1]
  simp [List.dropWhile]

/-- A key that is present in the key list looks up to something. -/
theorem JsonFields.lookup_isSome_of_memKey : ∀ (fs : JsonFields) (k : JStr),
    memKey k fs.keys = true → (fs.lookup k).isSome = true
  | .nil, k, h => by simp [JsonFields.keys, memKey] at h
  | .cons k' v' fs, k, h => by
    by_cases he : k' = k
    · simp [JsonFields.lookup, if_pos he]
    · simp only [JsonFields.keys, memKey, Bool.or_eq_true, beq_iff_eq] at h
      rcases h with h | h
      · exact absurd h he
      · simp only [JsonFields.lookup, if_neg he]
        exact JsonFields.lookup_isSome_of_memKey fs k h

/-- Keys surviving an erasure were present before it. -/
theorem memKey_eraseKey : ∀ (fs : JsonFields) (k j : JStr),
    memKey j (fs.eraseKey k).keys = true → memKey j fs.keys = true
  | .nil, _, _, h => h
  | .cons k' v' fs, k, j, h => by
    by_cases he : k' = k
    · simp only [JsonFields.eraseKey, if_pos he] at h
      simp only [JsonFields.keys, memKey, Bool.or_eq_true]
      exact Or.inr h
    · simp only [JsonFields.eraseKey, if_neg he, JsonFields.keys, memKey,
        Bool.or_eq_true] at h ⊢
      rcases h with h | h
      · exact Or.inl h
      · exact Or.inr (memKey_eraseKey fs k j h)

/-- Erasure preserves key distinctness. -/
theorem nodupKeysB_eraseKey : ∀ (fs : JsonFields) (k : JStr),
    nodupKeysB fs.keys = true → nodupKeysB (fs.eraseKey k).keys = true
  | .nil, _, _ => rfl
  | .cons k' v' fs, k, h => by
    simp only [JsonFields.keys, nodupKeysB, Bool.and_eq_true, Bool.not_eq_true'] at h
    by_cases he : k' = k
    · simp only [JsonFields.eraseKey, if_pos he]
      exact h.2
    · simp only [JsonFields.eraseKey, if_neg he, JsonFields.keys, nodupKeysB,
        Bool.and_eq_true, Bool.not_eq_true']
      refine ⟨?_, nodupKeysB_eraseKey fs k h.2⟩
      by_cases hm : memKey k' (fs.eraseKey k).keys = true
      · rw [memKey_eraseKey fs k k' hm] at h
        exact absurd h.1 (by simp)
      · simp at hm
        exact hm

/-- With distinct keys, erasing a key removes it entirely. -/
theorem not_memKey_eraseKey_self : ∀ (fs : JsonFields) (k : JStr),
    nodupKeysB fs.keys = true → memKey k (fs.eraseKey k).keys = false
  | .nil, _, _ => rfl
  | .cons k' v' fs, k, h => by
    simp only [JsonFields.keys, nodupKeysB, Bool.and_eq_true, Bool.not_eq_true'] at h
    by_cases he : k' = k
    · simp only [JsonFields.eraseKey, if_pos he]
      rw [← he]
      exact h.1
    · simp only [JsonFields.eraseKey, if_neg he, JsonFields.keys, memKey,
        Bool.or_eq_false_iff, beq_eq_false_iff_ne]
      exact ⟨he, not_memKey_eraseKey_self fs k h.2⟩

/-- Erasure preserves well-formedness of the member values. -/
theorem jsonFieldsWF_eraseKey : ∀ (fs : JsonFields) (k : JStr),
    jsonFieldsWF fs = true → jsonFieldsWF (fs.eraseKey k) = true
  | .nil, _, _ => rfl
  | .cons k' v' fs, k, h => by
    simp only [jsonFieldsWF, Bool.and_eq_true] at h
    by_cases he : k' = k
    · simp only [JsonFields.eraseKey, if_pos he]
      exact h.2
    · simp only [JsonFields.eraseKey, if_neg he, jsonFieldsWF, Bool.and_eq_true]
      exact ⟨h.1, jsonFieldsWF_eraseKey fs k h.2⟩

/-- Every value stored in a well-formed member list is well-formed. -/
theorem jsonWF_of_lookup : ∀ (fs : JsonFields) (k : JStr) (v : Json),
    jsonFieldsWF fs = true → fs.lookup k = some v → jsonWF v = true
  | .nil, _, _, _, hl => by simp [JsonFields.lookup] at hl
  | .cons k' v' fs, k, v, h, hl => by
    simp only [jsonFieldsWF, Bool.and_eq_true] at h
    by_cases he : k' = k
    · simp only [JsonFields.lookup, if_pos he, Option.some.injEq] at hl
      rw [← hl]
      exact h.1
    · simp only [JsonFields.lookup, if_neg he] at hl
      exact jsonWF_of_lookup fs k v h.2 hl

/-- `consField` preserves object well-formedness. -/
theorem consField_wf {k : JStr} {v : Json} {fs : JsonFields}
    (hfs : jsonWF (.obj fs) = true) (hv : jsonWF v = true) :
    jsonWF (.obj (consField k v fs)) = true := by
  simp only [jsonWF, Bool.and_eq_true] at hfs
  rw [consField]
  cases hl : fs.lookup k with
  | some v' =>
    simp only [jsonWF, JsonFields.keys, nodupKeysB, jsonFieldsWF, Bool.and_eq_true,
      Bool.not_eq_true']
    exact ⟨⟨not_memKey_eraseKey_self fs k hfs.1, nodupKeysB_eraseKey fs k hfs.1⟩,
      jsonWF_of_lookup fs k v' hfs.2 hl, jsonFieldsWF_eraseKey fs k hfs.2⟩
  | none =>
    simp only [jsonWF, JsonFields.keys, nodupKeysB, jsonFieldsWF, Bool.and_eq_true,
      Bool.not_eq_true']
    refine ⟨⟨?_, hfs.1⟩, hv, hfs.2⟩
    by_cases hm : memKey k fs.keys = true
    · have := JsonFields.lookup_isSome_of_memKey fs k hm
      rw [hl] at this
      simp at this
    · simp at hm
      exact hm

/-- Every value the parser produces is well-formed: object member lists
carry pairwise distinct keys (parsing deduplicates as JavaScript does). -/
theorem parseVal_wf : ∀ (fuel : Nat) (s : JStr) (v : Json) (r : JStr),
    parseVal fuel s = some (v, r) → jsonWF v = true := by
  intro fuel
  induction fuel with
  | zero => intro s v r h; simp [parseVal] at h
  | succ fuel ih =>
    intro s v r h
    simp only [parseVal] at h
    split at h
    · -- '{' :: r0
      split at h
      · -- '}' :: r1 : obj nil
        simp only [Option.some.injEq, Prod.mk.injEq] at h
        rw [← h.1]
        rfl
      · -- '"' :: r1 : member path
        split at h
        · exact absurd h (by simp)
        · -- parseStringBody ok
          split at h
          · -- ':' :: r3
            split at h
            · exact absurd h (by simp)
            · next v2 r4 hv2 =>
              -- hv2 : parseVal fuel r3 = some (v2, r4)
              have hwv2 := ih _ _ _ hv2
              split at h
              · -- '}' :: r5 : single member
                simp only [Option.some.injEq, Prod.mk.injEq] at h
                rw [← h.1]
                simp [jsonWF, JsonFields.keys, nodupKeysB, memKey, jsonFieldsWF, hwv2]
              · -- ',' :: r5
                split at h
                · -- '"' :: _
                  split at h
                  · next fs2 r6 hfs2 =>
                    have hwfs2 := ih _ _ _ hfs2
                    simp only [Option.some.injEq, Prod.mk.injEq] at h
                    rw [← h.1]
                    exact consField_wf hwfs2 hwv2
                  · exact absurd h (by simp)
                · exact absurd h (by simp)
              · exact absurd h (by simp)
          · exact absurd h (by simp)
      · exact absurd h (by simp)
    · -- '[' :: r0
      split at h
      · -- ']' :: r1 : arr nil
        simp only [Option.some.injEq, Prod.mk.injEq] at h
        rw [← h.1]
        rfl
      · split at h
        · exact absurd h (by simp)
        · next x r1 hx =>
          have hwx := ih _ _ _ hx
          split at h
          · -- ']' :: r2 : singleton
            simp only [Option.some.injEq, Prod.mk.injEq] at h
            rw [← h.1]
            simp [jsonWF, jsonListWF, hwx]
          · -- ',' :: r2
            split at h
            · exact absurd h (by simp)
            · split at h
              · next xs r3 hxs =>
                have hwxs := ih _ _ _ hxs
                simp only [Option.some.injEq, Prod.mk.injEq] at h
                rw [← h.1]
                simp only [jsonWF, jsonListWF, Bool.and_eq_true]
                refine ⟨hwx, ?_⟩
                simpa [jsonWF] using hwxs
              · exact absurd h (by simp)
          · exact absurd h (by simp)
    · -- '"' :: r0 : string
      split at h
      · next s2 r2 hs2 =>
        simp only [Option.some.injEq, Prod.mk.injEq] at h
        rw [← h.1]
        rfl
      · exact absurd h (by simp)
    · -- true
      simp only [Option.some.injEq, Prod.mk.injEq] at h
      rw [← h.1]
      rfl
    · -- false
      simp only [Option.some.injEq, Prod.mk.injEq] at h
      rw [← h.1]
      rfl
    · -- null
      simp only [Option.some.injEq, Prod.mk.injEq] at h
      rw [← h.1]
      rfl
    · -- number
      split at h
      · next p rr hp =>
        simp only [Option.some.injEq, Prod.mk.injEq] at h
        rw [← h.1]
        rfl
      · exact absurd h (by simp)

/-- Every value `JSON.parse` produces is well-formed. -/
theorem parseJson_wf {s : JStr} {v : Json} (h : parseJson s = some v) : jsonWF v = true := by
  rw [parseJson] at h
  split at h
  · next p heq =>
    split at h
    · simp only [Option.some.injEq] at h
      rw [← h]
      exact parseVal_wf _ _ _ _ heq
    · exact absurd h (by simp)
  · exact absurd h (by simp)

/-- The decode attempt of the backup engine always yields a well-formed value. -/
theorem tryDecode_wf (v : JStr) : jsonWF (tryDecode v) = true := by
  rw [tryDecode]
  split
  · next j hj => exact parseJson_wf hj
  · rfl

/-- Reading back the key just written. -/
theorem getItem_setItem_self (s : Store) (k v : JStr) :
    getItem (setItem s k v) k = some v := by
  induction s with
  | nil => simp [setItem, getItem]
  | cons kv rest ih =>
    rw [setItem]
    by_cases he : kv.1 = k
    · simp [he, getItem]
    · simp only [if_neg he]
      rw [getItem]
      simp only [if_neg he]
      exact ih

/-- Writing one key leaves the others unchanged. -/
theorem getItem_setItem_ne (s : Store) {k k2 : JStr} (v : JStr) (h : k ≠ k2) :
    getItem (setItem s k v) k2 = getItem s k2 := by
  induction s with
  | nil => simp [setItem, getItem, h]
  | cons kv rest ih =>
    rw [setItem]
    by_cases he : kv.1 = k
    · simp only [if_pos he, getItem]
      rw [if_neg h, if_neg (show kv.1 ≠ k2 from he ▸ h)]
    · simp only [if_neg he]
      rw [getItem, getItem]
      by_cases he2 : kv.1 = k2
      · simp only [if_pos he2]
      · simp only [if_neg he2]
        exact ih

/-- Unfolding lemma for entry lookup at a cons cell. -/
theorem lookupEntries_cons (k0 : JStr) (v0 : Json) (rest : List (JStr × Json)) (key : JStr) :
    lookupEntries ((k0, v0) :: rest) key =
      if k0 = key then some v0 else lookupEntries rest key := by
  rw [lookupEntries.eq_def]

/-- Lookup misses every entry list whose keys avoid the key. -/
theorem lookupEntries_eq_none : ∀ (entries : List (JStr × Json)) (k : JStr),
    (∀ e ∈ entries, e.1 ≠ k) → lookupEntries entries k = none := by
  intro entries
  induction entries with
  | nil => intro k _; rfl
  | cons e rest ih =>
    intro k h
    obtain ⟨k0, v0⟩ := e
    rw [lookupEntries_cons]
    rw [if_neg (h (k0, v0) (List.mem_cons_self _ _))]
    exact ih k (fun x hx => h x (List.mem_cons_of_mem _ hx))

/-- What the restore loop leaves under each key, for duplicate-free entries:
the written stored string for keys carrying a non-null value, the starting
store's value for skipped or absent keys. -/
theorem restoreItems_getItem : ∀ (entries : List (JStr × Json)) (s0 : Store) (k : JStr),
    (entries.map Prod.fst).Nodup →
    getItem (restoreItems entries s0).1 k =
      (match lookupEntries entries k with
       | some v => if v = Json.null then getItem s0 k else some (jsonToStoredString v)
       | none => getItem s0 k) := by
  intro entries
  induction entries with
  | nil => intro s0 k h; simp [restoreItems, lookupEntries]
  | cons e rest ih =>
    intro s0 k hnd
    obtain ⟨k0, v0⟩ := e
    simp only [List.map_cons, List.nodup_cons, List.mem_map] at hnd
    rw [restoreItems, lookupEntries_cons]
    by_cases hk : k0 = k
    · subst hk
      rw [if_pos rfl]
      have hrest : lookupEntries rest k0 = none :=
        lookupEntries_eq_none rest k0 (fun x hx hax => hnd.1 ⟨x, hx, hax⟩)
      by_cases hnull : v0 = Json.null
      · rw [if_pos hnull, ih s0 k0 hnd.2, hrest]
        simp [hnull]
      · rw [if_neg hnull]
        rcases hr : restoreItems rest (setItem s0 k0 (jsonToStoredString v0)) with ⟨a, n⟩
        have h2 := ih (setItem s0 k0 (jsonToStoredString v0)) k0 hnd.2
        rw [hr, hrest] at h2
        simp only at h2
        show getItem a k0 = _
        rw [h2, getItem_setItem_self]
        simp [hnull]
    · rw [if_neg hk]
      by_cases hnull : v0 = Json.null
      · rw [if_pos hnull]
        exact ih s0 k hnd.2
      · rw [if_neg hnull]
        rcases hr : restoreItems rest (setItem s0 k0 (jsonToStoredString v0)) with ⟨a, n⟩
        have h2 := ih (setItem s0 k0 (jsonToStoredString v0)) k hnd.2
        rw [hr] at h2
        simp only at h2
        show getItem a k = _
        rw [h2, getItem_setItem_ne s0 _ hk]

/-- The restore count ignores the starting store. -/
theorem restoreItems_count : ∀ (entries : List (JStr × Json)) (s0 s1 : Store),
    (restoreItems entries s0).2 = (restoreItems entries s1).2 := by
  intro entries
  induction entries with
  | nil => intro s0 s1; rfl
  | cons e rest ih =>
    intro s0 s1
    obtain ⟨k0, v0⟩ := e
    rw [restoreItems, restoreItems]
    by_cases hnull : v0 = Json.null
    · rw [if_pos hnull, if_pos hnull]
      exact ih s0 s1
    · rw [if_neg hnull, if_neg hnull]
      have h1 := ih (setItem s0 k0 (jsonToStoredString v0)) (setItem s1 k0 (jsonToStoredString v0))
      rcases hr0 : restoreItems rest (setItem s0 k0 (jsonToStoredString v0)) with ⟨a0, n0⟩
      rcases hr1 : restoreItems rest (setItem s1 k0 (jsonToStoredString v0)) with ⟨a1, n1⟩
      rw [hr0, hr1] at h1
      simpa using h1

/-- The restore count is zero exactly when every entry value is null. -/
theorem restoreItems_count_zero : ∀ (entries : List (JStr × Json)) (s0 : Store),
    ((restoreItems entries s0).2 = 0 ↔ ∀ e ∈ entries, e.2 = Json.null) := by
  intro entries
  induction entries with
  | nil => intro s0; simp [restoreItems]
  | cons e rest ih =>
    intro s0
    obtain ⟨k0, v0⟩ := e
    rw [restoreItems]
    by_cases hnull : v0 = Json.null
    · rw [if_pos hnull]
      simp only [List.mem_cons]
      constructor
      · intro h x hx
        rcases hx with hx | hx
        · rw [hx]; exact hnull
        · exact (ih s0).1 h x hx
      · intro h
        exact (ih s0).2 (fun x hx => h x (Or.inr hx))
    · rw [if_neg hnull]
      rcases hr : restoreItems rest (setItem s0 k0 (jsonToStoredString v0)) with ⟨a, n⟩
      simp only [List.mem_cons]
      constructor
      · intro h
        omega
      · intro h
        have h2 := h (k0, v0) (Or.inl rfl)
        simp only at h2
        exact absurd h2 hnull

/-- A successful store read exhibits a member of the association list. -/
theorem getItem_mem : ∀ (s : Store) (k v : JStr), getItem s k = some v → (k, v) ∈ s := by
  intro s
  induction s with
  | nil => intro k v h; simp [getItem] at h
  | cons kv rest ih =>
    intro k v h
    obtain ⟨a, b⟩ := kv
    rw [getItem] at h
    by_cases he : a = k
    · rw [if_pos he] at h
      simp only [Option.some.injEq] at h
      rw [← he, ← h]
      exact List.mem_cons_self _ _
    · rw [if_neg he] at h
      exact List.mem_cons_of_mem _ (ih k v h)

/-- Lookup in the cleaned store matches the original store read. -/
theorem lookup_cleanStore : ∀ (s : Store), keysNodup s → ∀ k : JStr,
    lookupEntries (cleanStore s) k =
      (match getItem s k with
       | some v => if v = [] then none else some (tryDecode v)
       | none => none) := by
  intro s
  induction s with
  | nil => intro _ k; simp [cleanStore, getItem, lookupEntries]
  | cons kv rest ih =>
    intro hnd k
    obtain ⟨k0, v0⟩ := kv
    simp only [keysNodup, List.map_cons, List.nodup_cons, List.mem_map] at hnd
    rw [cleanStore, getItem]
    by_cases he : k0 = k
    · subst he
      rw [if_pos rfl]
      by_cases hv : v0 = []
      · rw [if_pos hv, ih hnd.2 k0]
        have hg0 : getItem rest k0 = none := by
          cases hg : getItem rest k0 with
          | none => rfl
          | some w => exact absurd (getItem_mem rest k0 w hg) (fun hm => hnd.1 ⟨_, hm, rfl⟩)
        rw [hg0]
        simp [hv]
      · rw [if_neg hv, lookupEntries_cons, if_pos rfl]
        simp [hv]
    · rw [if_neg (show k0 ≠ k from he)]
      by_cases hv : v0 = []
      · rw [if_pos hv]
        exact ih hnd.2 k
      · rw [if_neg hv]
        rw [lookupEntries_cons, if_neg he]
        exact ih hnd.2 k

/-- Packing an association list into member lists and unpacking is the identity. -/
theorem fieldsOfList_toList : ∀ l : List (JStr × Json), (fieldsOfList l).toList = l := by
  intro l
  induction l with
  | nil => rfl
  | cons e rest ih =>
    obtain ⟨k, v⟩ := e
    rw [fieldsOfList, JsonFields.toList, ih]

/-- The keys of a packed association list. -/
theorem fieldsOfList_keys : ∀ l : List (JStr × Json),
    (fieldsOfList l).keys = l.map Prod.fst := by
  intro l
  induction l with
  | nil => rfl
  | cons e rest ih =>
    obtain ⟨k, v⟩ := e
    rw [fieldsOfList, JsonFields.keys, ih, List.map_cons]

/-- Lookup commutes with packing. -/
theorem fieldsOfList_lookup : ∀ (l : List (JStr × Json)) (k : JStr),
    (fieldsOfList l).lookup k = lookupEntries l k := by
  intro l
  induction l with
  | nil => intro k; rfl
  | cons e rest ih =>
    intro k
    obtain ⟨k0, v0⟩ := e
    rw [fieldsOfList, JsonFields.lookup, lookupEntries_cons]
    by_cases he : k0 = k
    · rw [if_pos he, if_pos he]
    · rw [if_neg he, if_neg he]
      exact ih k

/-- The boolean key-membership test agrees with list membership. -/
theorem memKey_iff {k : JStr} : ∀ {ks : List JStr}, memKey k ks = true ↔ k ∈ ks := by
  intro ks
  induction ks with
  | nil => simp [memKey]
  | cons k0 rest ih =>
    simp only [memKey, Bool.or_eq_true, beq_iff_eq, List.mem_cons, ih]
    constructor
    · rintro (h | h)
      · exact Or.inl h.symm
      · exact Or.inr h
    · rintro (h | h)
      · exact Or.inl h.symm
      · exact Or.inr h

/-- The boolean distinctness test agrees with `List.Nodup`. -/
theorem nodupKeysB_iff : ∀ {ks : List JStr}, nodupKeysB ks = true ↔ ks.Nodup := by
  intro ks
  induction ks with
  | nil => simp [nodupKeysB]
  | cons k0 rest ih =>
    simp only [nodupKeysB, Bool.and_eq_true, Bool.not_eq_true', List.nodup_cons, ih]
    constructor
    · rintro ⟨h1, h2⟩
      refine ⟨fun hm => ?_, h2⟩
      rw [(memKey_iff).2 hm] at h1
      cases h1
    · rintro ⟨h1, h2⟩
      refine ⟨?_, h2⟩
      by_cases hm : memKey k0 rest = true
      · exact absurd ((memKey_iff).1 hm) h1
      · simp at hm
        exact hm

/-- Cleaned-store keys come from the original store. -/
theorem mem_map_fst_cleanStore : ∀ (s : Store) (k : JStr),
    k ∈ (cleanStore s).map Prod.fst → k ∈ s.map Prod.fst := by
  intro s
  induction s with
  | nil => intro k h; simp [cleanStore] at h
  | cons kv rest ih =>
    intro k h
    obtain ⟨k0, v0⟩ := kv
    rw [cleanStore] at h
    by_cases hv : v0 = []
    · rw [if_pos hv] at h
      exact List.mem_cons_of_mem _ (ih k h)
    · rw [if_neg hv] at h
      simp only [List.map_cons, List.mem_cons] at h ⊢
      rcases h with h | h
      · exact Or.inl h
      · exact Or.inr (ih k h)

/-- Cleaning preserves key distinctness. -/
theorem cleanStore_keys_nodup : ∀ (s : Store), keysNodup s →
    ((cleanStore s).map Prod.fst).Nodup := by
  intro s
  induction s with
  | nil => intro _; simp [cleanStore]
  | cons kv rest ih =>
    intro hnd
    obtain ⟨k0, v0⟩ := kv
    simp only [keysNodup, List.map_cons, List.nodup_cons] at hnd
    rw [cleanStore]
    by_cases hv : v0 = []
    · rw [if_pos hv]
      exact ih hnd.2
    · rw [if_neg hv]
      simp only [List.map_cons, List.nodup_cons]
      exact ⟨fun hm => hnd.1 (mem_map_fst_cleanStore rest k0 hm), ih hnd.2⟩

/-- Every value in the backup document is a decode attempt, hence well-formed. -/
theorem cleanStore_fieldsWF : ∀ (s : Store),
    jsonFieldsWF (fieldsOfList (cleanStore s)) = true := by
  intro s
  induction s with
  | nil => rfl
  | cons kv rest ih =>
    obtain ⟨k0, v0⟩ := kv
    rw [cleanStore]
    by_cases hv : v0 = []
    · rw [if_pos hv]
      exact ih
    · rw [if_neg hv, fieldsOfList]
      simp only [jsonFieldsWF, Bool.and_eq_true]
      exact ⟨tryDecode_wf v0, ih⟩

/-- The backup document of a duplicate-free store is well-formed. -/
theorem cleanStore_doc_wf (s : Store) (hnd : keysNodup s) :
    jsonWF (.obj (fieldsOfList (cleanStore s))) = true := by
  simp only [jsonWF, Bool.and_eq_true]
  refine ⟨?_, cleanStore_fieldsWF s⟩
  rw [fieldsOfList_keys]
  exact (nodupKeysB_iff).2 (cleanStore_keys_nodup s hnd)

/-- For duplicate-free stores the backup object is the cleaned store, packed
in order (`consField` never meets a duplicate key). -/
theorem backupFields_eq : ∀ (s : Store), keysNodup s →
    backupFields s = fieldsOfList (cleanStore s) := by
  intro s
  induction s with
  | nil => intro _; rfl
  | cons kv rest ih =>
    intro hnd
    obtain ⟨k0, v0⟩ := kv
    simp only [keysNodup, List.map_cons, List.nodup_cons] at hnd
    rw [backupFields, cleanStore]
    by_cases hv : v0 = []
    · rw [if_pos hv, if_pos hv]
      exact ih hnd.2
    · rw [if_neg hv, if_neg hv, ih hnd.2, fieldsOfList]
      have hlk : (fieldsOfList (cleanStore rest)).lookup k0 = none := by
        rw [fieldsOfList_lookup]
        exact lookupEntries_eq_none _ _ (fun e he hek => by
          refine hnd.1 ?_
          rw [← hek]
          exact mem_map_fst_cleanStore rest e.1 (List.mem_map_of_mem Prod.fst he))
      rw [consField, hlk]

/-- Parsing the backup text of a duplicate-free store recovers the cleaned
store as a JSON object. -/
theorem parseJson_createBackup (s : Store) (hnd : keysNodup s) :
    parseJson (createBackup s) = some (.obj (fieldsOfList (cleanStore s))) := by
  rw [createBackup, backupFields_eq s hnd]
  exact parseJson_print (cleanStore_doc_wf s hnd)

/-- The keys of the raw members are exactly the store's keys. -/
theorem rawStore_keys : ∀ (s : Store),
    (rawStore s).map Prod.fst = s.map Prod.fst := by
  intro s
  induction s with
  | nil => rfl
  | cons kv rest ih =>
    obtain ⟨k0, v0⟩ := kv
    show k0 :: (rawStore rest).map Prod.fst = k0 :: rest.map Prod.fst
    rw [ih]

/-- Every raw member value is a JSON string, hence well-formed. -/
theorem rawStore_fieldsWF : ∀ (s : Store),
    jsonFieldsWF (fieldsOfList (rawStore s)) = true := by
  intro s
  induction s with
  | nil => rfl
  | cons kv rest ih =>
    obtain ⟨k0, v0⟩ := kv
    show jsonFieldsWF (fieldsOfList ((k0, Json.str v0) :: rawStore rest)) = true
    rw [fieldsOfList]
    simp only [jsonFieldsWF, Bool.and_eq_true]
    exact ⟨rfl, ih⟩

/-- The raw backup document of a duplicate-free store is well-formed. -/
theorem rawStore_doc_wf (s : Store) (hnd : keysNodup s) :
    jsonWF (.obj (fieldsOfList (rawStore s))) = true := by
  simp only [jsonWF, Bool.and_eq_true]
  refine ⟨?_, rawStore_fieldsWF s⟩
  rw [fieldsOfList_keys, rawStore_keys]
  exact (nodupKeysB_iff).2 hnd

/-- For duplicate-free stores the settings backup object is the raw store,
packed in order (`consField` never meets a duplicate key). -/
theorem settingsFields_eq : ∀ (s : Store), keysNodup s →
    settingsFields s = fieldsOfList (rawStore s) := by
  intro s
  induction s with
  | nil => intro _; rfl
  | cons kv rest ih =>
    intro hnd
    obtain ⟨k0, v0⟩ := kv
    simp only [keysNodup, List.map_cons, List.nodup_cons] at hnd
    rw [settingsFields]
    show consField k0 (.str v0) (settingsFields rest) =
      fieldsOfList ((k0, Json.str v0) :: rawStore rest)
    rw [ih hnd.2, fieldsOfList]
    have hlk : (fieldsOfList (rawStore rest)).lookup k0 = none := by
      rw [fieldsOfList_lookup]
      exact lookupEntries_eq_none _ _ (fun e he hek => by
        refine hnd.1 ?_
        rw [← hek]
        have hm : e.1 ∈ (rawStore rest).map Prod.fst := List.mem_map_of_mem Prod.fst he
        rw [rawStore_keys] at hm
        exact hm)
    rw [consField, hlk]

/-- Parsing the settings backup of a duplicate-free store recovers every key
with its raw string value. -/
theorem parseJson_createBackupSettings (s : Store) (hnd : keysNodup s) :
    parseJson (createBackupSettings s) = some (.obj (fieldsOfList (rawStore s))) := by
  rw [createBackupSettings, settingsFields_eq s hnd]
  exact parseJson_print (rawStore_doc_wf s hnd)

/-- The separated-members printing always ends with the closing brace. -/
theorem stringifySepMembers_last : ∀ fs : JsonFields,
    ∃ mid, stringifySepMembers fs = mid ++ ['\x7d']
  | .nil => ⟨[], rfl⟩
  | .cons k v fs => by
    obtain ⟨mid, h⟩ := stringifySepMembers_last fs
    refine ⟨',' :: '"' :: (escapeStr k ++ '"' :: ':' :: (stringifyJson v ++ mid)), ?_⟩
    rw [stringifySepMembers, h]
    simp

/-- The members printing always ends with the closing brace. -/
theorem stringifyMembers_last : ∀ fs : JsonFields,
    ∃ mid, stringifyMembers fs = mid ++ ['\x7d']
  | .nil => ⟨[], rfl⟩
  | .cons k v fs => by
    obtain ⟨mid, h⟩ := stringifySepMembers_last fs
    refine ⟨'"' :: (escapeStr k ++ '"' :: ':' :: (stringifyJson v ++ mid)), ?_⟩
    rw [stringifyMembers, h]
    simp

/-- Trimming keeps a string whose first and last characters are not spaces. -/
theorem jsTrim_keep {c d : Char} (hc : isJsonWs c = false) (hd : isJsonWs d = false)
    (mid : JStr) : jsTrim (c :: (mid ++ [d])) = c :: (mid ++ [d]) := by
  rw [jsTrim, dropWhile_ws_cons hc]
  have h1 : (c :: (mid ++ [d])).reverse = d :: (mid.reverse ++ [c]) := by simp
  rw [h1, dropWhile_ws_cons hd, ← h1, List.reverse_reverse]

/-- Dropping up to the first brace keeps a string that starts with one. -/
theorem dropBeforeBrace_keep (rest : JStr) :
    dropBeforeBrace ('\x7b' :: rest) = '\x7b' :: rest := by
  rw [dropBeforeBrace, if_pos (List.mem_cons_self _ _)]
  simp [List.dropWhile]

/-- With no truthy `data` key in the store, the restore does not unwrap. -/
theorem resolveData_doc (s : Store) (hnd : keysNodup s) (hds : dataSafe s) :
    resolveData (.obj (fieldsOfList (cleanStore s))) = .obj (fieldsOfList (cleanStore s)) := by
  have hlk := lookup_cleanStore s hnd ['d', 'a', 't', 'a']
  rw [dataSafe] at hds
  rw [resolveData, fieldsOfList_lookup, hlk]
  cases hg : getItem s ['d', 'a', 't', 'a'] with
  | none => rfl
  | some v =>
    rw [hg] at hds
    simp only at hds
    by_cases hv : v = []
    · simp [hv]
    · have hds2 : jsTruthy (tryDecode v) = false := by
        rcases hds with h | h
        · exact absurd h hv
        · exact h
      simp [hv, hds2]

/-- Restoring a backup of a duplicate-free, data-safe store with at least one
restorable entry succeeds and replays the cleaned store into an empty one. -/
theorem restoreFromBackup_createBackup (s s0 : Store) (hnd : keysNodup s)
    (hds : dataSafe s) (hnn : ∃ e ∈ cleanStore s, e.2 ≠ Json.null) :
    restoreFromBackup (createBackup s) s0 = .ok (restoreItems (cleanStore s) []) := by
  obtain ⟨mid, hmid⟩ := stringifyMembers_last (backupFields s)
  have hdoc : createBackup s = '\x7b' :: (mid ++ ['\x7d']) := by
    rw [createBackup, stringifyJson, hmid]
  have h1 : jsTrim (createBackup s) = createBackup s := by
    rw [hdoc]; exact jsTrim_keep (by decide) (by decide) mid
  have h2 : dropBeforeBrace (createBackup s) = createBackup s := by
    rw [hdoc]; exact dropBeforeBrace_keep _
  have h3 : ¬((jsTrim (createBackup s)).length < 2) := by
    rw [h1, hdoc]; simp
  have h4 := parseJson_createBackup s hnd
  rw [restoreFromBackup, if_neg h3, h1, h2, h4]
  show (if jsObjLike (Json.obj (fieldsOfList (cleanStore s))) = true then
          match jsEntries (resolveData (Json.obj (fieldsOfList (cleanStore s)))) with
          | [] => Except.error "No data found in backup".data
          | entries =>
            match restoreItems entries ([] : Store) with
            | (_, 0) => Except.error "Failed to restore any items".data
            | (store2, n) => Except.ok (store2, n)
        else Except.error "Invalid backup data - not an object".data) = _
  have hobj : jsObjLike (Json.obj (fieldsOfList (cleanStore s))) = true := rfl
  rw [if_pos hobj, resolveData_doc s hnd hds]
  have hent : jsEntries (.obj (fieldsOfList (cleanStore s))) = cleanStore s := by
    rw [jsEntries, fieldsOfList_toList]
  rw [hent]
  obtain ⟨e0, he0, hnn0⟩ := hnn
  split
  · next heq => rw [heq] at he0; cases he0
  · next entries heq =>
    have hcount : (restoreItems (cleanStore s) ([] : Store)).2 ≠ 0 := by
      intro h0
      rw [restoreItems_count_zero (cleanStore s) []] at h0
      exact hnn0 (h0 e0 he0)
    rcases hri : restoreItems (cleanStore s) ([] : Store) with ⟨st, n⟩
    rw [hri] at hcount
    simp only at hcount
    cases n with
    | zero => exact absurd rfl hcount
    | succ n2 => rfl

/-- The backup/restore round trip, per key: every key of the original store
either disappears (empty value, or value decoding to JSON null) or carries
the round-tripped value described by `rtVal`. -/
theorem roundTrip_getItem (s : Store) (hnd : keysNodup s) (k : JStr) :
    getItem (restoreItems (cleanStore s) []).1 k = (getItem s k).bind rtVal := by
  rw [restoreItems_getItem (cleanStore s) [] k (cleanStore_keys_nodup s hnd)]
  rw [lookup_cleanStore s hnd k]
  cases hg : getItem s k with
  | none => simp [getItem, Option.bind]
  | some v =>
    by_cases hv : v = []
    · simp [hv, rtVal, getItem, Option.bind]
    · simp only [Option.bind, if_neg hv]
      rw [rtVal, if_neg hv]
      cases hp : parseJson v with
      | none => simp [tryDecode, hp, jsonToStoredString]
      | some j =>
        cases j with
        | null => simp [tryDecode, hp, getItem]
        | str s2 => simp [tryDecode, hp, jsonToStoredString]
        | bool b => simp [tryDecode, hp, jsonToStoredString]
        | num n => simp [tryDecode, hp, jsonToStoredString]
        | arr xs => simp [tryDecode, hp, jsonToStoredString]
        | obj fs => simp [tryDecode, hp, jsonToStoredString]

/-- The restore operation succeeds exactly on the inputs accepted by the
spec-side acceptance condition. -/
theorem restore_isOk (input : JStr) (s0 : Store) :
    isOkB (restoreFromBackup input s0) = restoreAccepts input := by
  rw [restoreFromBackup, restoreAccepts]
  by_cases hlen : (jsTrim input).length < 2
  · rw [if_pos hlen, if_pos hlen]
    rfl
  · rw [if_neg hlen, if_neg hlen]
    cases hp : parseJson (dropBeforeBrace (jsTrim input)) with
    | none => rfl
    | some j =>
      show isOkB (if jsObjLike j = true then
            match jsEntries (resolveData j) with
            | [] => Except.error "No data found in backup".data
            | entries =>
              match restoreItems entries ([] : Store) with
              | (_, 0) => Except.error "Failed to restore any items".data
              | (store2, n) => Except.ok (store2, n)
          else Except.error "Invalid backup data - not an object".data) =
        (jsObjLike j && (jsEntries (resolveData j)).any (fun e => e.2 != Json.null))
      by_cases hobj : jsObjLike j = true
      · rw [if_pos hobj, hobj, Bool.true_and]
        cases he : jsEntries (resolveData j) with
        | nil => simp [isOkB]
        | cons e rest =>
          show isOkB (match restoreItems (e :: rest) ([] : Store) with
                | (_, 0) => Except.error "Failed to restore any items".data
                | (store2, n) => Except.ok (store2, n)) =
              ((e :: rest).any (fun x => x.2 != Json.null))
          rcases hri : restoreItems (e :: rest) ([] : Store) with ⟨st, n⟩
          cases n with
          | zero =>
            have hall := (restoreItems_count_zero (e :: rest) []).1 (by rw [hri])
            show false = (e :: rest).any (fun x => x.2 != Json.null)
            symm
            rw [List.any_eq_false]
            intro x hx
            simp [hall x hx]
          | succ n2 =>
            show true = (e :: rest).any (fun x => x.2 != Json.null)
            symm
            rw [List.any_eq_true]
            by_contra hno
            push_neg at hno
            have hall : ∀ x ∈ e :: rest, x.2 = Json.null := by
              intro x hx
              have := hno x hx
              simpa using this
            have := (restoreItems_count_zero (e :: rest) []).2 hall
            rw [hri] at this
            simp at this
      · rw [if_neg hobj]
        have hobj2 : jsObjLike j = false := by simpa using hobj
        simp [isOkB, hobj2]

/-- A device returned by `getActiveDevice` is a member of the collection. -/
theorem getActiveDevice_mem (s : RegState) (d : DeviceData)
    (h : getActiveDevice s = some d) : d ∈ getDevices s := by
  rw [getActiveDevice] at h
  split at h
  · cases h
  · split at h
    · cases h
    · exact List.mem_of_find?_eq_some h

/-- Adding to a nonempty collection keeps the pointer and the nonemptiness. -/
theorem addDevice_preserve (s : RegState) (d : DeviceInput) (id : String)
    (h : getDevices s ≠ []) :
    ((addDevice s d id).1).activeId = s.activeId ∧ getDevices (addDevice s d id).1 ≠ [] := by
  have hdev : ¬(s.devices = []) := by simpa [getDevices] using h
  simp [addDevice, hdev, getDevices]

/-- Adding to an empty collection makes the new device active. -/
theorem addDevice_first (s : RegState) (d : DeviceInput) (id : String)
    (h : getDevices s = []) :
    ((addDevice s d id).1).activeId = some id ∧ getDevices (addDevice s d id).1 ≠ [] := by
  have hdev : s.devices = [] := h
  simp [addDevice, hdev, setActiveDevice, getDevices]

/-- `addDevice` always leaves a nonempty collection. -/
theorem addDevice_devices_ne (s : RegState) (d : DeviceInput) (id : String) :
    getDevices (addDevice s d id).1 ≠ [] := by
  by_cases h : getDevices s = []
  · exact (addDevice_first s d id h).2
  · exact (addDevice_preserve s d id h).2

/-- A fold of adds over a nonempty collection never moves the pointer. -/
theorem addSeq_preserve : ∀ (adds : List (DeviceInput × String)) (st : RegState),
    getDevices st ≠ [] →
    (addSeq st adds).activeId = st.activeId ∧ getDevices (addSeq st adds) ≠ [] := by
  intro adds
  induction adds with
  | nil => intro st h; exact ⟨rfl, h⟩
  | cons p rest ih =>
    intro st h
    have hstep : addSeq st (p :: rest) = addSeq (addDevice st p.1 p.2).1 rest := rfl
    obtain ⟨h1, h2⟩ := addDevice_preserve st p.1 p.2 h
    obtain ⟨h3, h4⟩ := ih (addDevice st p.1 p.2).1 h2
    rw [hstep]
    exact ⟨by rw [h3, h1], h4⟩

/-- Migration on a nonempty collection is a no-op returning `false`. -/
theorem migrate_of_nonempty (s : RegState) (id : String) (h : getDevices s ≠ []) :
    migrateFromLegacyStorage s id = (s, false) := by
  rw [migrateFromLegacyStorage, if_pos h]

/-- Either migration is a no-op for every fresh id, or it has produced a
nonempty device collection. -/
theorem migrate_split (s : RegState) (id1 : String) :
    (∀ id2 : String, migrateFromLegacyStorage s id2 = (s, false)) ∨
    getDevices (migrateFromLegacyStorage s id1).1 ≠ [] := by
  by_cases hdev : getDevices s ≠ []
  · exact Or.inl (fun id2 => migrate_of_nonempty s id2 hdev)
  · cases hu : s.legacyUnitNumber with
    | none =>
      left
      intro id2
      simp [migrateFromLegacyStorage, hdev, hu]
    | some u =>
      by_cases hue : u = ""
      · left
        intro id2
        simp [migrateFromLegacyStorage, hdev, hu, hue]
      · cases hr : s.legacyRelaySettings with
        | none =>
          right
          simp [migrateFromLegacyStorage, hdev, hu, hue, hr, addDevice_devices_ne]
        | some rs =>
          by_cases hre : rs = ""
          · right
            simp [migrateFromLegacyStorage, hdev, hu, hue, hr, hre, addDevice_devices_ne]
          · cases hp : parseJson rs.data with
            | none =>
              left
              intro id2
              simp [migrateFromLegacyStorage, hdev, hu, hue, hr, hre, hp]
            | some rj =>
              right
              simp [migrateFromLegacyStorage, hdev, hu, hue, hr, hre, hp, addDevice_devices_ne]


/-! ### The claims -/

/-- A stored pair with a truthy value survives into the cleaned store, with
its value replaced by the decode attempt. -/
theorem mem_cleanStore : ∀ (s : Store) (k v : JStr), (k, v) ∈ s → v ≠ [] →
    (k, tryDecode v) ∈ cleanStore s := by
  intro s
  induction s with
  | nil => intro k v h _; cases h
  | cons e rest ih =>
    intro k v h hv
    rcases e with ⟨k0, v0⟩
    rcases List.mem_cons.mp h with heq | hmem
    · injection heq with hk hv0
      subst hk
      subst hv0
      simp [cleanStore, hv]
    · by_cases hv0 : v0 = []
      · rw [cleanStore, if_pos hv0]
        exact ih k v hmem hv
      · rw [cleanStore, if_neg hv0]
        exact List.mem_cons_of_mem _ (ih k v hmem hv)

/-- The decode attempt yields JSON `null` only for a value that parses to
`null`. -/
theorem tryDecode_ne_null (v : JStr) (h : parseJson v ≠ some Json.null) :
    tryDecode v ≠ Json.null := by
  intro h0
  rw [tryDecode] at h0
  cases hp : parseJson v with
  | none => rw [hp] at h0; exact Json.noConfusion h0
  | some j =>
    rw [hp] at h0
    have h0j : j = Json.null := h0
    exact h (by rw [hp, h0j])

/-- C1 (counterexample): the round trip fails outright on the empty store —
`createBackup` emits the bare flat object `\x7b\x7d`, which the restore
rejects with `No data found in backup`, so the original (empty) key set is
not reproduced. -/
theorem c1_cex :
    createBackup [] = ['\x7b', '\x7d'] ∧
    restoreFromBackup (createBackup []) [] = Except.error "No data found in backup".data :=
  ⟨rfl, rfl⟩

/-- C1 (amended): the backup/restore round trip reproduces the store only up
to the restore pipeline's drops and re-encodings: for every store with
duplicate-free keys, no interfering `data` key, and at least one key whose
value is truthy and does not decode to JSON `null`, the restore of the backup
succeeds and every key afterwards holds `rtVal` of its original value — keys
with empty values or values decoding to `null` are gone, string-decoding
values are unquoted, and other JSON-decoding values are re-encoded. -/
theorem c1_roundTrip (s s0 : Store) (hnd : keysNodup s) (hds : dataSafe s)
    (hnn : ∃ kv ∈ s, kv.2 ≠ [] ∧ parseJson kv.2 ≠ some Json.null) :
    ∃ st n, restoreFromBackup (createBackup s) s0 = Except.ok (st, n) ∧
      ∀ k, getItem st k = (getItem s k).bind rtVal := by
  obtain ⟨kv, hmem, hne, hpn⟩ := hnn
  have hcs : ∃ e ∈ cleanStore s, e.2 ≠ Json.null :=
    ⟨(kv.1, tryDecode kv.2), mem_cleanStore s kv.1 kv.2 hmem hne, tryDecode_ne_null kv.2 hpn⟩
  have hmain := restoreFromBackup_createBackup s s0 hnd hds hcs
  refine ⟨(restoreItems (cleanStore s) []).1, (restoreItems (cleanStore s) []).2, ?_, ?_⟩
  · rw [hmain]
  · intro k
    exact roundTrip_getItem s hnd k

/-- C1 (witness): the amended round trip at the one-key store
`[("a", "1")]`. -/
theorem c1_check :
    keysNodup storeOne ∧ dataSafe storeOne ∧
    (∃ kv ∈ storeOne, kv.2 ≠ [] ∧ parseJson kv.2 ≠ some Json.null) ∧
    (∃ st n, restoreFromBackup (createBackup storeOne) [] = Except.ok (st, n) ∧
      ∀ k, getItem st k = (getItem storeOne k).bind rtVal) := by
  have h1 : keysNodup storeOne := by unfold keysNodup; decide
  have h2 : dataSafe storeOne := True.intro
  have h3 : ∃ kv ∈ storeOne, kv.2 ≠ [] ∧ parseJson kv.2 ≠ some Json.null := by decide
  exact ⟨h1, h2, h3, c1_roundTrip storeOne [] h1 h2 h3⟩

/-- C2 (counterexample): deleting the active device `x` while the device with
the empty-string id remains re-elects that device, and `getActiveDevice`
then returns `none` although another device exists — the empty-string id is
falsy in the source's `if (!activeId) return null`. -/
theorem c2_cex :
    regDelete.activeId = some "x" ∧
    getDevices (deleteDevice regDelete "x") ≠ [] ∧
    getActiveDevice (deleteDevice regDelete "x") = none := by
  exact ⟨rfl, by decide, rfl⟩

/-- C2 (amended): under the extra assumption that no stored device carries
the empty-string id, deleting the active device with devices remaining leaves
`getActiveDevice` at some still-existing device, and deleting the last device
leaves it at `none`. -/
theorem c2_delete_active (s : RegState) (deviceId : String)
    (hids : ∀ d ∈ getDevices s, d.id ≠ "") :
    (s.activeId = some deviceId → getDevices (deleteDevice s deviceId) ≠ [] →
      ∃ d, getActiveDevice (deleteDevice s deviceId) = some d ∧
        d ∈ getDevices (deleteDevice s deviceId))
    ∧ (getDevices (deleteDevice s deviceId) = [] →
      getActiveDevice (deleteDevice s deviceId) = none) := by
  constructor
  · intro hact hne
    rcases hupd : (getDevices s).filter (fun d => d.id ≠ deviceId) with _ | ⟨u, rest⟩ <;>
      simp only [ne_eq, decide_not, getDevices] at hupd
    · exact absurd (by simp [deleteDevice, hupd, getDevices]) hne
    · have hdel : deleteDevice s deviceId = setActiveDevice { s with devices := u :: rest } u.id := by
        simp [deleteDevice, hupd, getActiveDeviceId, hact, getDevices]
      have hu_src : u ∈ getDevices s := by
        have hmemf : u ∈ (getDevices s).filter (fun d => d.id ≠ deviceId) := by
          simp only [ne_eq, decide_not, getDevices]
          rw [hupd]
          exact List.mem_cons_self u rest
        exact List.mem_of_mem_filter hmemf
      have huid : u.id ≠ "" := hids u hu_src
      refine ⟨u, ?_, ?_⟩
      · rw [hdel]
        simp [getActiveDevice, getActiveDeviceId, setActiveDevice, getDevices, huid, List.find?]
      · rw [hdel]
        show u ∈ u :: rest
        exact List.mem_cons_self u rest
  · intro hemp
    rcases hupd : (getDevices s).filter (fun d => d.id ≠ deviceId) with _ | ⟨u, rest⟩ <;>
      simp only [ne_eq, decide_not, getDevices] at hupd
    · have hdel : deleteDevice s deviceId = { s with devices := [] } := by
        simp [deleteDevice, hupd, getDevices]
      rw [hdel, getActiveDevice]
      cases ha : getActiveDeviceId { s with devices := ([] : List DeviceData) } with
      | none => rfl
      | some a =>
        by_cases hae : a = ""
        · simp [hae]
        · simp [hae, getDevices, List.find?]
    · exfalso
      by_cases hcond : getActiveDeviceId s = some deviceId
      · have hdel : deleteDevice s deviceId = setActiveDevice { s with devices := u :: rest } u.id := by
          simp [deleteDevice, hupd, hcond, getDevices]
        rw [hdel] at hemp
        exact List.noConfusion hemp
      · have hdel : deleteDevice s deviceId = { s with devices := u :: rest } := by
          simp [deleteDevice, hupd, hcond, getDevices]
        rw [hdel] at hemp
        exact List.noConfusion hemp

/-- C2 (witness): deleting the active device `a` from the two-device registry
re-elects the remaining device `b`. -/
theorem c2_check :
    (∀ d ∈ getDevices regTwo, d.id ≠ "") ∧
    (∃ d, getActiveDevice (deleteDevice regTwo "a") = some d ∧
      d ∈ getDevices (deleteDevice regTwo "a")) := by
  have h1 : ∀ d ∈ getDevices regTwo, d.id ≠ "" := by decide
  exact ⟨h1, (c2_delete_active regTwo "a" h1).1 rfl (by decide)⟩

/-- C3: starting from an empty collection, the first added device becomes the
active one, and any later `addDevice` (collection nonempty) leaves the
active-device pointer unchanged. -/
theorem c3_first_add_active (s : RegState) (first : DeviceInput × String)
    (rest : List (DeviceInput × String)) (h : getDevices s = []) :
    (addSeq s (first :: rest)).activeId = some first.2 ∧
    ∀ (st : RegState) (d : DeviceInput) (id : String), getDevices st ≠ [] →
      ((addDevice st d id).1).activeId = st.activeId := by
  constructor
  · have hstep : addSeq s (first :: rest) = addSeq (addDevice s first.1 first.2).1 rest := rfl
    obtain ⟨h1, h2⟩ := addDevice_first s first.1 first.2 h
    obtain ⟨h3, _⟩ := addSeq_preserve rest (addDevice s first.1 first.2).1 h2
    rw [hstep, h3, h1]
  · intro st d id hne
    exact (addDevice_preserve st d id hne).1

/-- C3 (witness): two adds into the empty registry leave the first id
active. -/
theorem c3_check :
    getDevices emptyReg = [] ∧
    (addSeq emptyReg [(devInputA, "id1"), (devInputA, "id2")]).activeId = some "id1" :=
  ⟨rfl, (c3_first_add_active emptyReg (devInputA, "id1") [(devInputA, "id2")] rfl).1⟩

/-- C4 (counterexample): the stored pointer is not kept valid — deleting the
last device leaves the pointer dangling at the deleted id (the source never
clears it), and `setActiveDevice` happily points into an empty collection. -/
theorem c4_cex :
    (deleteDevice regOne "a").activeId = some "a" ∧
    getDevices (deleteDevice regOne "a") = [] ∧
    (setActiveDevice emptyReg "x").activeId = some "x" ∧
    getDevices (setActiveDevice emptyReg "x") = [] :=
  ⟨rfl, rfl, rfl, rfl⟩

/-- C4 (amended): the invariant holds of the resolved view, not the stored
pointer — whenever `getActiveDevice` returns a device, that device is a
member of the current collection (dangling and falsy pointers resolve to
`none`). -/
theorem c4_active_resolves (s : RegState) (d : DeviceData)
    (h : getActiveDevice s = some d) : d ∈ getDevices s :=
  getActiveDevice_mem s d h

/-- C4 (witness): the resolved active device of the one-device registry is
its member. -/
theorem c4_check :
    getActiveDevice regOne = some devA ∧ devA ∈ getDevices regOne :=
  ⟨rfl, c4_active_resolves regOne devA rfl⟩

/-- C5 (code bug): with device password `1234`, adding the authorized user
with phone number `1234` sends `1234A001#1234#`; `command.replace(password,
"****")` masks only the first occurrence, so the logged details
`Command sent: ****A001#1234#` still contain the password in plaintext. -/
theorem c5_password_in_details :
    authorizedUsersLogDetails "1234".data (addUserCommand "1234".data "001".data "1234".data)
      = "Command sent: ****A001#1234#".data ∧
    containsSub (authorizedUsersLogDetails "1234".data
      (addUserCommand "1234".data "001".data "1234".data)) "1234".data = true :=
  ⟨rfl, rfl⟩

/-- C6: legacy migration is idempotent — the second invocation leaves the
state of the first unchanged — and it is a no-op returning `false` whenever
the device collection is already nonempty. -/
theorem c6_migration_idempotent (s : RegState) (id1 id2 : String) :
    (migrateFromLegacyStorage (migrateFromLegacyStorage s id1).1 id2).1 =
      (migrateFromLegacyStorage s id1).1 ∧
    (getDevices s ≠ [] → migrateFromLegacyStorage s id1 = (s, false)) := by
  constructor
  · rcases migrate_split s id1 with hall | hne
    · rw [hall id1]
      show (migrateFromLegacyStorage s id2).1 = s
      rw [hall id2]
    · rw [migrate_of_nonempty _ id2 hne]
  · exact migrate_of_nonempty s id1

/-- C6 (witness): migration on the one-device registry is a no-op. -/
theorem c6_check :
    getDevices regOne ≠ [] ∧ migrateFromLegacyStorage regOne "m1" = (regOne, false) := by
  have h : getDevices regOne ≠ [] := by decide
  exact ⟨h, (c6_migration_idempotent regOne "m1" "m2").2 h⟩

/-- C7 (counterexample): neither backup document carries a `\x7bversion,
timestamp, data\x7d` envelope, and the two creators do not even agree with
each other — in src/app/device-add.tsx a store whose only key has an empty
(falsy) value backs up to the bare `\x7b\x7d` with the key silently dropped
and `[("a", "1")]` backs up with the decoded member `a: 1`, while the
settings-screen variant of src/unnamed/part_001 keeps the empty-valued key
verbatim and stores the raw undecoded string `a: "1"`. -/
theorem c7_cex :
    createBackup [("k".data, ([] : JStr))] = ['\x7b', '\x7d'] ∧
    parseJson (createBackup storeOne) =
      some (Json.obj (JsonFields.cons "a".data (Json.num 1) JsonFields.nil)) ∧
    createBackupSettings [("k".data, ([] : JStr))] = "\x7b\"k\":\"\"\x7d".data ∧
    parseJson (createBackupSettings storeOne) =
      some (Json.obj (JsonFields.cons "a".data (Json.str "1".data) JsonFields.nil)) :=
  ⟨rfl, rfl, rfl, rfl⟩

/-- C7 (amended): both backup creators always succeed and emit a flat
document with no envelope, but they differ in content — the device-add
variant keeps exactly the truthy-valued keys, each with its decode attempt,
while the settings variant of src/unnamed/part_001 keeps every key with its
raw, undecoded string value; both yield the bare `\x7b\x7d` on the empty
store. -/
theorem c7_backup_flat (s : Store) (hnd : keysNodup s) :
    (parseJson (createBackup s) = some (Json.obj (fieldsOfList (cleanStore s))) ∧
      createBackup [] = ['\x7b', '\x7d']) ∧
    (parseJson (createBackupSettings s) = some (Json.obj (fieldsOfList (rawStore s))) ∧
      createBackupSettings [] = ['\x7b', '\x7d']) :=
  ⟨⟨parseJson_createBackup s hnd, rfl⟩, ⟨parseJson_createBackupSettings s hnd, rfl⟩⟩

/-- C7 (witness): both flat backup shapes at the one-key store. -/
theorem c7_check :
    keysNodup storeOne ∧
    parseJson (createBackup storeOne) = some (Json.obj (fieldsOfList (cleanStore storeOne))) ∧
    parseJson (createBackupSettings storeOne) =
      some (Json.obj (fieldsOfList (rawStore storeOne))) := by
  have h : keysNodup storeOne := by unfold keysNodup; decide
  exact ⟨h, (c7_backup_flat storeOne h).1.1, (c7_backup_flat storeOne h).2.1⟩

/-- C8 (counterexample): with a device id supplied but no device-scoped slot
stored, the read falls back to the legacy global `authorizedUsers` list — the
legacy list is consulted even though a device id was given. -/
theorem c8_cex :
    getItem storeLegacyOnly (scopedUsersKey "d1".data) = none ∧
    loadAuthorizedUsers storeLegacyOnly (some "d1".data) = some "[\"u\"]".data :=
  ⟨rfl, rfl⟩

/-- C8 (amended): the device-scoped slot wins only when truthy — a supplied
device id reads the scoped slot when that slot holds a nonempty value, and
otherwise the read equals the no-id legacy read; the DeviceContext variant
does scope strictly, reading only `getDeviceUsers` whenever a truthy device
id is supplied. -/
theorem c8_scoped_reads (store : Store) (id v : JStr) :
    (getItem store (scopedUsersKey id) = some v → v ≠ [] →
      loadAuthorizedUsers store (some id) = some v) ∧
    (getItem store (scopedUsersKey id) = none ∨ getItem store (scopedUsersKey id) = some [] →
      loadAuthorizedUsers store (some id) = loadAuthorizedUsers store none) ∧
    (∀ act : Option JStr, id ≠ [] →
      getAuthorizedUsers store act (some id) = getDeviceUsers store id) := by
  refine ⟨?_, ?_, ?_⟩
  · intro h1 hv
    simp [loadAuthorizedUsers, h1, hv]
  · intro h1
    rcases h1 with h1 | h1 <;> simp [loadAuthorizedUsers, h1]
  · intro act hid
    cases act with
    | none => simp [getAuthorizedUsers, hid]
    | some a => simp [getAuthorizedUsers, hid]

/-- C8 (witness): the scoped read at a store holding one device-scoped
list. -/
theorem c8_check :
    getItem storeScoped (scopedUsersKey "d1".data) = some "[\"x\"]".data ∧
    loadAuthorizedUsers storeScoped (some "d1".data) = some "[\"x\"]".data ∧
    getAuthorizedUsers storeScoped none (some "d1".data) = getDeviceUsers storeScoped "d1".data := by
  have h1 : getItem storeScoped (scopedUsersKey "d1".data) = some "[\"x\"]".data := rfl
  exact ⟨h1, (c8_scoped_reads storeScoped "d1".data "[\"x\"]".data).1 h1 (by decide),
    (c8_scoped_reads storeScoped "d1".data "[\"x\"]".data).2.2 none (by decide)⟩

/-- C9: restoring from the document holding `data.gsm_devices = "[]"` clears
any starting store and leaves exactly the key `gsm_devices` with the verbatim
two-character value `[]`, reporting one restored item. -/
theorem c9_restore_scenario (s : Store) :
    restoreFromBackup "\x7b\"data\":\x7b\"gsm_devices\":\"[]\"\x7d\x7d".data s =
      Except.ok ([("gsm_devices".data, "[]".data)], 1) := by
  rfl

/-- C10 (counterexample): `\x7b"data":\x7b\x7d\x7d` parses as an object with the
one non-`null` entry `data`, yet the restore rejects it — the claim misses
the unwrapping of the `data` member, after which no entries remain. -/
theorem c10_cex :
    parseJson "\x7b\"data\":\x7b\x7d\x7d".data =
      some (Json.obj (JsonFields.cons "data".data (Json.obj JsonFields.nil) JsonFields.nil)) ∧
    (jsEntries (Json.obj (JsonFields.cons "data".data (Json.obj JsonFields.nil) JsonFields.nil))).any
      (fun e => e.2 != Json.null) = true ∧
    restoreFromBackup "\x7b\"data\":\x7b\x7d\x7d".data [] =
      Except.error "No data found in backup".data :=
  ⟨rfl, rfl, rfl⟩

/-- C10 (amended): the restore succeeds exactly when the trimmed input has at
least two characters, the part from the first brace on parses as JSON, the
parse is an object or an array (the truthiness-and-`typeof` guard rejects
`null`, booleans, numbers and strings), and the entries of the resolved data
map — the `data` member when truthy, the whole document otherwise — contain
at least one non-`null` value. -/
theorem c10_accepts_iff (input : JStr) (s0 : Store) :
    isOkB (restoreFromBackup input s0) = restoreAccepts input :=
  restore_isOk input s0

end GsmOpener
